import Mathlib

/-!
# Verification of the catalog-filter mirror filter (`pkg/filter/mirror-config/v1alpha1`)

A shallow embedding of the oc-mirror filter implementation of the
`sherine-k/catalog-filter` repository, together with theorems settling the
claims about `FilterCatalog`, `setDefaultChannel` and `filterDeprecations`.

Modelling conventions:
* Go strings are Lean `String`; Go's `strings.Compare` is modelled by a
  character-wise comparison on `String.data` (`strLt`), which agrees with
  Go's byte-wise comparison on ASCII data.
* Go maps are association lists (`List (String × α)`) with Go's assignment
  semantics (`mapInsert` overwrites in place, appends new keys) and lookup
  returning `Option`; a lookup of a missing key followed by use of the zero
  value is `(mapGet? m k).getD default`.
* `sets.Set[string]` is a duplicate-free `List String` built by `setInsert`.
* Go slices are Lean lists.  The source occasionally normalizes empty slices
  to `nil`; lists do not distinguish the two, which is noted at each use.
* Fallible Go functions returning `(T, error)` become `Except String T`.
* `slices.SortFunc` is modelled by `List.insertionSort`; for inputs whose
  sort keys are pairwise distinct (the only inputs the theorems below touch)
  every comparison sort produces the same output list.
-/

/-! ## Byte-wise string comparison (models Go `strings.Compare` / `<`) -/

def strLtAux : List Char → List Char → Bool
  | [], [] => false
  | [], _ :: _ => true
  | _ :: _, [] => false
  | a :: as, b :: bs => if a < b then true else if b < a then false else strLtAux as bs

def strLt (a b : String) : Bool := strLtAux a.data b.data

/-! ## Association-list maps (Go `map[string]T`) and string sets (`sets.Set[string]`) -/

def mapGet? {α : Type} : List (String × α) → String → Option α
  | [], _ => none
  | (k, v) :: rest, key => if k = key then some v else mapGet? rest key

/-- Go map assignment `m[k] = v`: overwrite the binding of `k` if present,
otherwise add one. -/
def mapInsert {α : Type} : List (String × α) → String → α → List (String × α)
  | [], key, v => [(key, v)]
  | (k, w) :: rest, key, v =>
    if k = key then (key, v) :: rest else (k, w) :: mapInsert rest key v

/-- `sets.Set[string].Insert` for one element. -/
def setInsert (s : List String) (x : String) : List String :=
  if s.contains x then s else s ++ [x]

/-- The pattern used throughout the source for `map[string]sets.Set[string]`:
ensure the key's set exists, then insert one element into it. -/
def kbInsert (kb : List (String × List String)) (p x : String) : List (String × List String) :=
  match mapGet? kb p with
  | none => mapInsert kb p (setInsert [] x)
  | some s => mapInsert kb p (setInsert s x)

/-- `keepBundles[p] = keepBundles[p].Union(names)` with the preceding
ensure-key-exists block of the source. -/
def kbUnion (kb : List (String × List String)) (p : String) (names : List String) :
    List (String × List String) :=
  match mapGet? kb p with
  | none => mapInsert kb p (names.foldl setInsert [])
  | some s => mapInsert kb p (names.foldl setInsert s)

/-! ## Semantic versions and ranges

The source delegates version parsing and range evaluation to the external
`Masterminds/semver` library.  The library is not part of this repository, so
it is modelled here just faithfully enough for the filter: a strict
`MAJOR.MINOR.PATCH[-prerelease][+metadata]` parser and conjunctive comparator
constraints such as `">=1.0.0 <2.0.0"`. -/

def splitOnChar (sep : Char) : List Char → List (List Char)
  | [] => [[]]
  | c :: rest =>
    let r := splitOnChar sep rest
    if c = sep then [] :: r
    else
      match r with
      | [] => [[c]]
      | g :: gs => (c :: g) :: gs

/-- Strict decimal parse: non-empty, digits only, no leading zero. -/
def parseNatStrict (cs : List Char) : Option Nat :=
  match cs with
  | [] => none
  | c :: rest =>
    if c = '0' ∧ rest ≠ [] then none
    else if (c :: rest).all Char.isDigit then
      some ((c :: rest).foldl (fun n d => n * 10 + (d.toNat - 48)) 0)
    else none

structure SemVer where
  major : Nat
  minor : Nat
  patch : Nat
  pre : String := ""
deriving DecidableEq

instance : Inhabited SemVer := ⟨⟨0, 0, 0, ""⟩⟩

/-- `mmsemver.StrictNewVersion` (external library, modelled): strip build
metadata after `+`, split off the prerelease after the first `-`, and require
the remainder to be exactly three strict decimal numbers. -/
def strictParseVersion (s : String) : Option SemVer :=
  let noMeta := (splitOnChar '+' s.data).headD []
  let dashParts := splitOnChar '-' noMeta
  let core := dashParts.headD []
  let pre := String.mk ((dashParts.tail.intersperse ['-']).flatten)
  match splitOnChar '.' core with
  | [a, b, c] =>
    match parseNatStrict a, parseNatStrict b, parseNatStrict c with
    | some ma, some mi, some pa => some ⟨ma, mi, pa, pre⟩
    | _, _, _ => none
  | _ => none

/-- Semver precedence: compare the numeric triple; on ties a release
(empty prerelease) is greater than any prerelease, and prereleases are
compared as raw strings (an approximation of the dotted-identifier rules,
sufficient for the inputs treated here). -/
def semVerLt (a b : SemVer) : Bool :=
  if a.major ≠ b.major then a.major < b.major
  else if a.minor ≠ b.minor then a.minor < b.minor
  else if a.patch ≠ b.patch then a.patch < b.patch
  else if a.pre = "" then false
  else if b.pre = "" then true
  else strLt a.pre b.pre

inductive CmpOp
  | ge
  | le
  | gt
  | lt
  | eq
deriving DecidableEq

structure Comparator where
  op : CmpOp
  ver : SemVer
deriving DecidableEq

/-- A conjunctive semver constraint (the form used by the filter's
configurations, e.g. `">=1.0.0 <2.0.0"`). -/
def RangeConstraint := List Comparator

def checkComparator (v : SemVer) (c : Comparator) : Bool :=
  match c.op with
  | .ge => ¬ semVerLt v c.ver
  | .le => ¬ semVerLt c.ver v
  | .gt => semVerLt c.ver v
  | .lt => semVerLt v c.ver
  | .eq => v = c.ver

def checkConstraint (c : RangeConstraint) (v : SemVer) : Bool :=
  c.all (checkComparator v)

def parseComparator (cs : List Char) : Option Comparator :=
  let opAndRest : CmpOp × List Char :=
    match cs with
    | '>' :: '=' :: rest => (.ge, rest)
    | '<' :: '=' :: rest => (.le, rest)
    | '>' :: rest => (.gt, rest)
    | '<' :: rest => (.lt, rest)
    | '=' :: rest => (.eq, rest)
    | rest => (.eq, rest)
  match strictParseVersion (String.mk opAndRest.2) with
  | some v => some ⟨opAndRest.1, v⟩
  | none => none

/-- `mmsemver.NewConstraint` (external library, modelled): parse a
space-separated conjunction of comparators. -/
def parseConstraint (s : String) : Except String RangeConstraint :=
  let tokens := (splitOnChar ' ' s.data).filter (fun t => ¬ t.isEmpty)
  let parsed := tokens.map parseComparator
  if parsed.all Option.isSome then
    .ok (parsed.filterMap id)
  else
    .error ("improper constraint: " ++ s)

/-! ## The catalog data model (`operator-registry`'s `declcfg` package)

Only the fields the filter reads or writes are represented.  The JSON value
of an `olm.package` bundle property is abstracted to the version string it
carries, which is the only part `getBundleVersion` consumes. -/

structure ChannelEntry where
  name : String
  replaces : String := ""
  skips : List String := []
deriving DecidableEq

instance : Inhabited ChannelEntry := ⟨⟨"", "", []⟩⟩

structure Channel where
  package : String
  name : String
  entries : List ChannelEntry := []
deriving DecidableEq

instance : Inhabited Channel := ⟨⟨"", "", []⟩⟩

structure Package where
  name : String
  defaultChannel : String := ""
deriving DecidableEq

instance : Inhabited Package := ⟨⟨"", ""⟩⟩

structure BundleProperty where
  ptype : String
  value : String
deriving DecidableEq

structure Bundle where
  package : String
  name : String
  properties : List BundleProperty := []
deriving DecidableEq

instance : Inhabited Bundle := ⟨⟨"", "", []⟩⟩

structure DeprecationRef where
  schema : String
  name : String
deriving DecidableEq

structure DeprecationEntry where
  reference : DeprecationRef
deriving DecidableEq

structure Deprecation where
  package : String
  entries : List DeprecationEntry := []
deriving DecidableEq

structure Meta where
  schema : String
  package : String
  name : String
deriving DecidableEq

structure DeclarativeConfig where
  packages : List Package := []
  channels : List Channel := []
  bundles : List Bundle := []
  deprecations : List Deprecation := []
  others : List Meta := []
deriving DecidableEq

instance : Inhabited DeclarativeConfig := ⟨{}⟩

/-- `declcfg.SchemaBundle`. -/
def SchemaBundle : String := "olm.bundle"

/-- `declcfg.SchemaChannel`. -/
def SchemaChannel : String := "olm.channel"

/-- `property.TypePackage`. -/
def TypePackage : String := "olm.package"

/-! ## Channel model

The channel graph implementation (`newChannel` and its methods) is referenced
by the filter but its file is not part of the supplied sources; it is
modelled from the specification (§4.3 "Channel model"). -/

/-- Modelled from the spec: head detection of the channel model (§4.3).
`newChannel` builds the upgrade graph of one channel and exposes its unique
head; the head is the entry that no other entry replaces or skips.  Zero
candidates is the cycle error *no channel heads found*, several candidates is
the *multiple channel heads* error.  Only the head's name is consumed by the
filter engine, so only it is returned here. -/
def channelHead (ch : Channel) : Except String String :=
  let isHead := fun (e : ChannelEntry) =>
    ¬ ch.entries.any (fun e2 =>
        e2.name ≠ e.name ∧ (e2.replaces = e.name ∨ e2.skips.contains e.name))
  match ch.entries.filter isHead with
  | [e] => .ok e.name
  | [] => .error "no channel heads found"
  | _ => .error "multiple channel heads"

/-- The linear `replaces` chain starting at a bundle name, with explicit fuel
(the chain of a well-formed channel is no longer than its entry list). -/
def replacesChain (entries : List ChannelEntry) : Nat → String → List String
  | 0, _ => []
  | fuel + 1, cur =>
    cur ::
      (match entries.find? (fun e => e.name = cur) with
       | some e => if e.replaces = "" then [] else replacesChain entries fuel e.replaces
       | none => [])

/-- Modelled from the spec: version-range filtering of the channel model
(§4.3), whose implementation is not among the supplied sources.  Starting
from the forced head, keep every entry whose version satisfies the
constraint, then close the `replaces` chain from the head down to the last
kept node so the kept set stays connected to the head; if in the end only
the forced head remains and it does not itself satisfy the range, the
channel counts as empty and the empty set is returned. -/
def filterByVersionRange (ch : Channel) (head : String) (c : RangeConstraint)
    (versions : List (String × SemVer)) : List String :=
  let inRange : String → Bool := fun n =>
    match mapGet? versions n with
    | some v => checkConstraint c v
    | none => false
  let keep0 := ch.entries.foldl
    (fun acc e => if inRange e.name = true then setInsert acc e.name else acc)
    (setInsert [] head)
  let chain := replacesChain ch.entries (ch.entries.length + 1) head
  let forced := (chain.reverse.dropWhile (fun n => ! keep0.contains n)).reverse
  let keep1 := forced.foldl setInsert keep0
  if keep1.all (fun n => n = head) && ! inRange head then [] else keep1

/-! ## The catalog index (`internal-pkgs.go`: `operatorIndex`, `indexFromDeclCfg`) -/

structure OperatorIndex where
  packages : List (String × Package) := []
  channels : List (String × List Channel) := []
  channelNames : List (String × List String) := []
  channelEntries : List (String × List (String × List (String × ChannelEntry))) := []
  bundlesByPkgAndName : List (String × List (String × Bundle)) := []
  bundleVersionsByPkgAndName : List (String × List (String × SemVer)) := []
deriving DecidableEq

instance : Inhabited OperatorIndex := ⟨{}⟩

/-- `newOperatorIndex`. -/
def newOperatorIndex : OperatorIndex := {}

/-- `getBundleVersion`: find the first `olm.package` property and parse its
version strictly (the property's JSON payload is abstracted to the version
string it carries; a payload that fails to parse is a version parse error). -/
def getBundleVersion (b : Bundle) : Except String SemVer :=
  match b.properties.find? (fun p => p.ptype = TypePackage) with
  | some p =>
    match strictParseVersion p.value with
    | some v => .ok v
    | none => .error "Invalid Semantic Version"
  | none =>
    .error ("bundle \"" ++ b.name ++ "\" in package \"" ++ b.package ++
      "\" has no package property")

/-- The packages pass of `indexFromDeclCfg`. -/
def indexPackagesStep (idx : OperatorIndex) (p : Package) : OperatorIndex :=
  { idx with packages := mapInsert idx.packages p.name p }

/-- The channels pass of `indexFromDeclCfg`: extend `Channels`,
`ChannelNames` and `ChannelEntries` with one channel. -/
def indexChannelStep (idx : OperatorIndex) (c : Channel) : OperatorIndex :=
  let pkgEntries := (mapGet? idx.channelEntries c.package).getD []
  let chEntries := c.entries.foldl
    (fun (m : List (String × ChannelEntry)) e => mapInsert m e.name e)
    ((mapGet? pkgEntries c.name).getD [])
  { idx with
    channels := mapInsert idx.channels c.package (((mapGet? idx.channels c.package).getD []) ++ [c])
    channelNames := kbInsert idx.channelNames c.package c.name
    channelEntries := mapInsert idx.channelEntries c.package (mapInsert pkgEntries c.name chEntries) }

/-- One step of the bundles pass of `indexFromDeclCfg`: parse the bundle's
version (failing the whole build on error), record the first bundle seen for
each `(package, name)` and its version. -/
def indexBundlesStep (idx : OperatorIndex) (b : Bundle) : Except String OperatorIndex :=
  match getBundleVersion b with
  | .error e => .error e
  | .ok v =>
    let bm := (mapGet? idx.bundlesByPkgAndName b.package).getD []
    let bm1 := if (mapGet? bm b.name).isSome then bm else mapInsert bm b.name b
    let vm := (mapGet? idx.bundleVersionsByPkgAndName b.package).getD []
    .ok { idx with
      bundlesByPkgAndName := mapInsert idx.bundlesByPkgAndName b.package bm1
      bundleVersionsByPkgAndName :=
        mapInsert idx.bundleVersionsByPkgAndName b.package (mapInsert vm b.name v) }

def indexBundles : List Bundle → OperatorIndex → Except String OperatorIndex
  | [], idx => .ok idx
  | b :: rest, idx =>
    match indexBundlesStep idx b with
    | .error e => .error e
    | .ok idx1 => indexBundles rest idx1

/-- `indexFromDeclCfg`: one pass over packages, channels and bundles. -/
def indexFromDeclCfg (cfg : DeclarativeConfig) : Except String OperatorIndex :=
  let idx0 := cfg.packages.foldl indexPackagesStep newOperatorIndex
  let idx1 := cfg.channels.foldl indexChannelStep idx0
  indexBundles cfg.bundles idx1

/-! ## Filter configuration (`mirror-filter.go`) and `NewMirrorFilter` -/

structure FilterChannel where
  name : String
  versionRange : String := ""
deriving DecidableEq

instance : Inhabited FilterChannel := ⟨⟨"", ""⟩⟩

structure SelectedBundle where
  name : String
deriving DecidableEq

structure FilterPackage where
  name : String
  defaultChannel : String := ""
  versionRange : String := ""
  channels : List FilterChannel := []
  selectedBundles : List SelectedBundle := []
deriving DecidableEq

instance : Inhabited FilterPackage := ⟨⟨"", "", "", [], []⟩⟩

structure FilterConfiguration where
  packages : List FilterPackage := []
deriving DecidableEq

/-- The `mirrorFilter` struct: indexed configuration plus options.  The
logger option is I/O-only and not modelled; `full` is the `InFull` option. -/
structure MirrorFilter where
  pkgConfigs : List (String × FilterPackage) := []
  chConfigs : List (String × List (String × FilterChannel)) := []
  full : Bool := false
deriving DecidableEq

/-- `NewMirrorFilter`: index the configuration by package name and by
package/channel name.  `full` is the value set by the `InFull` option. -/
def NewMirrorFilter (config : FilterConfiguration) (full : Bool) : MirrorFilter :=
  let step := fun (acc : List (String × FilterPackage) × List (String × List (String × FilterChannel)))
      (pkg : FilterPackage) =>
    let pkgChannels := (mapGet? acc.2 pkg.name).getD []
    let pkgChannels1 := pkg.channels.foldl (fun m ch => mapInsert m ch.name ch) pkgChannels
    (mapInsert acc.1 pkg.name pkg, mapInsert acc.2 pkg.name pkgChannels1)
  let maps := config.packages.foldl step ([], [])
  { pkgConfigs := maps.1, chConfigs := maps.2, full := full }

/-- `bundleNames`. -/
def bundleNames (bundles : List SelectedBundle) : List String :=
  bundles.map (fun b => b.name)

/-! ## Orders used by `compareBundles` / `compareChannels` -/

/-- `compareBundles a b < 0`: compare by package, then by name. -/
def bundleKeyLt (a b : Bundle) : Bool :=
  if strLt a.package b.package = true then true
  else if strLt b.package a.package = true then false
  else strLt a.name b.name

/-- `compareChannels a b < 0`: compare by package, then by name. -/
def channelKeyLt (a b : Channel) : Bool :=
  if strLt a.package b.package = true then true
  else if strLt b.package a.package = true then false
  else strLt a.name b.name

/-- The non-strict order `slices.SortFunc(compareBundles)` sorts by. -/
def bundleLe (a b : Bundle) : Prop := bundleKeyLt b a = false

/-- The non-strict order `slices.SortFunc(compareChannels)` sorts by. -/
def channelLe (a b : Channel) : Prop := channelKeyLt b a = false

instance : DecidableRel bundleLe := fun a b => by unfold bundleLe; infer_instance

instance : DecidableRel channelLe := fun a b => by unfold channelLe; infer_instance

/-- `slices.SortFunc(fbc.Bundles, compareBundles)`. -/
def sortBundles (bs : List Bundle) : List Bundle := List.insertionSort bundleLe bs

/-- `slices.SortFunc(index.Channels[...], compareChannels)`. -/
def sortChannels (chs : List Channel) : List Channel := List.insertionSort channelLe chs

/-! ## The filter engine (`catalog-filter.go`, first/normative variant) -/

/-- `setDefaultChannel`: reconcile a retained package's default channel
against the surviving channel-name set. -/
def setDefaultChannel (pkg : Package) (pkgConfig : FilterPackage) (channels : List String) :
    Except String Package :=
  if pkg.defaultChannel = "" ∧ pkgConfig.defaultChannel = "" then
    .ok pkg
  else if pkgConfig.defaultChannel ≠ "" then
    if ! channels.contains pkgConfig.defaultChannel then
      .error ("specified default channel override \"" ++ pkgConfig.defaultChannel ++
        "\" does not exist in the filtered output")
    else
      .ok { pkg with defaultChannel := pkgConfig.defaultChannel }
  else if ! channels.contains pkg.defaultChannel then
    .error ("the default channel \"" ++ pkg.defaultChannel ++
      "\" was filtered out, a new default channel must be configured for this package")
  else
    .ok pkg

/-- `keepPackageDefaultChannel`: sort the index's channel list of the package
in place (the update of the index is returned), look the default channel up
by binary search — modelled as a find on the sorted list, which is what a
binary search computes — and keep only that channel of the package in
`fbc.Channels`.  The `fbc.Channels == nil` test of the source maps to
emptiness here; the branch cannot fire at the existing call sites because the
index is built from the very same catalog. -/
def keepPackageDefaultChannel (fbc : DeclarativeConfig) (pkg : Package) (index : OperatorIndex) :
    Except String (DeclarativeConfig × OperatorIndex) :=
  let sorted := sortChannels ((mapGet? index.channels pkg.name).getD [])
  let index1 := { index with channels := mapInsert index.channels pkg.name sorted }
  match sorted.find? (fun ch => decide (ch.package = pkg.name) && decide (ch.name = pkg.defaultChannel)) with
  | some found =>
    if fbc.channels.isEmpty then
      .ok ({ fbc with channels := [found] }, index1)
    else if sorted.length = 0 then
      .ok ({ fbc with channels := fbc.channels ++ [found] }, index1)
    else
      .ok ({ fbc with channels := fbc.channels.filter (fun ch =>
          if ch.package = pkg.name then decide (ch.name = found.name) else true) }, index1)
  | none =>
    .error ("default channel " ++ pkg.defaultChannel ++ " not found for package " ++ pkg.name)

/-- `filterByPackageAndChannels`: keep only objects of configured packages
and, where channel filters are listed, only the listed channels.  The
source's normalization of empty slices to `nil` is the identity on lists. -/
def filterByPackageAndChannels (f : MirrorFilter) (fbc : DeclarativeConfig) : DeclarativeConfig :=
  { packages := fbc.packages.filter (fun p => (mapGet? f.chConfigs p.name).isSome)
    channels := fbc.channels.filter (fun ch =>
      match mapGet? f.chConfigs ch.package with
      | some chSet => if chSet.length > 0 then (mapGet? chSet ch.name).isSome else true
      | none => false)
    bundles := fbc.bundles.filter (fun b => (mapGet? f.chConfigs b.package).isSome)
    deprecations := fbc.deprecations.filter (fun d => (mapGet? f.chConfigs d.package).isSome)
    others := fbc.others.filter (fun m =>
      if m.package = "" then true else (mapGet? f.chConfigs m.package).isSome) }

/-- `filterDeprecations`: drop bundle-schema entries whose package has a kept
set that misses the referenced name, and channel-schema entries whose package
has a channel-name set in the index that misses the referenced name;
everything else is kept. -/
def filterDeprecations (fbc : DeclarativeConfig) (index : OperatorIndex)
    (keptBundles : List (String × List String)) : DeclarativeConfig :=
  { fbc with deprecations := fbc.deprecations.map (fun d =>
      { d with entries := d.entries.filter (fun e =>
          if e.reference.schema = SchemaBundle then
            match mapGet? keptBundles d.package with
            | some bundles => bundles.contains e.reference.name
            | none => true
          else if e.reference.schema = SchemaChannel then
            match mapGet? index.channelNames d.package with
            | some channels => channels.contains e.reference.name
            | none => true
          else true) }) }

/-- The per-channel effective version range of the channels loop: the channel
filter's range, or failing that the package filter's range. -/
def effectiveVersionRange (f : MirrorFilter) (ch : Channel) : String :=
  let chCfgVR := ((mapGet? ((mapGet? f.chConfigs ch.package).getD []) ch.name).getD default).versionRange
  let pkgVR := ((mapGet? f.pkgConfigs ch.package).getD default).versionRange
  if chCfgVR = "" ∧ pkgVR ≠ "" then pkgVR else chCfgVR

/-- The packages loop of `FilterCatalog` (per-package default-channel
reconciliation and, outside full mode, reduction to the default channel).
Errors carry the state of the catalog object at the moment of the early
return. -/
def pkgLoop (f : MirrorFilter) :
    Nat → List Package → DeclarativeConfig → OperatorIndex →
    Except (String × DeclarativeConfig) (DeclarativeConfig × OperatorIndex)
  | _, [], st, idx => .ok (st, idx)
  | i, pkg :: rest, st, idx =>
    match mapGet? f.pkgConfigs pkg.name with
    | some pkgConfig =>
      match setDefaultChannel pkg pkgConfig ((mapGet? idx.channelNames pkg.name).getD []) with
      | .error e =>
        .error ("invalid default channel configuration for package \"" ++ pkg.name ++ "\": " ++ e, st)
      | .ok pkg1 =>
        -- `filteredFBC.Packages[pkgIndex].DefaultChannel = pkg.DefaultChannel`:
        -- `pkg1` differs from the element at `i` only in that field.
        let st1 := { st with packages := st.packages.set i pkg1 }
        if pkgConfig.channels.length = 0 ∧ f.full = false ∧ pkgConfig.selectedBundles.length = 0 then
          match keepPackageDefaultChannel st1 pkg1 idx with
          | .error e =>
            .error ("failure in filtering default channel for package \"" ++ pkg.name ++ "\": " ++ e, st1)
          | .ok (st2, idx2) => pkgLoop f (i + 1) rest st2 idx2
        else
          pkgLoop f (i + 1) rest st1 idx
    | none =>
      if f.full then
        pkgLoop f (i + 1) rest st idx
      else
        match keepPackageDefaultChannel st pkg idx with
        | .error e =>
          .error ("failure in filtering default channel for package \"" ++ pkg.name ++ "\": " ++ e, st)
        | .ok (st1, idx1) => pkgLoop f (i + 1) rest st1 idx1

/-- The channels loop of `FilterCatalog`: per channel, dispatch on the
configuration mode, update the channel's entries in place and extend the
`keepBundles` map.  The loop walks the channel list as it stood on entry;
every write within an iteration targets that iteration's own index, so the
walked values coincide with the entry list. -/
def chLoop (f : MirrorFilter) (idx : OperatorIndex) :
    Nat → List Channel → DeclarativeConfig → List (String × List String) →
    Except (String × DeclarativeConfig) (DeclarativeConfig × List (String × List String))
  | _, [], st, kb => .ok (st, kb)
  | i, ch :: rest, st, kb =>
    let versionRange := effectiveVersionRange f ch
    let pkgCfg := (mapGet? f.pkgConfigs ch.package).getD default
    if f.full = true ∧ versionRange ≠ "" then
      .error ("Full: true cannot be mixed with versionRange", st)
    else if f.full = true ∧ pkgCfg.selectedBundles.length > 0 then
      .error ("Full: true cannot be mixed with filtering by bundle selection", st)
    else if pkgCfg.selectedBundles.length > 0 ∧ versionRange ≠ "" then
      .error ("filtering by versionRange cannot be mixed with filtering by bundle selection", st)
    else if pkgCfg.selectedBundles.length > 0 then
      let kb1 := (bundleNames pkgCfg.selectedBundles).foldl (fun k n => kbInsert k ch.package n) kb
      -- the entries of the channel at index `i` in `st` are still `ch.entries`
      let newEntries := ch.entries.filter (fun e =>
        pkgCfg.selectedBundles.any (fun sb => decide (sb.name = e.name)))
      let st1 := { st with channels := st.channels.set i { ch with entries := newEntries } }
      match channelHead { ch with entries := newEntries } with
      | .error e =>
        .error ("filtering on the selected bundles leads to invalidating channel \"" ++ ch.name ++
          "\" for package \"" ++ ch.package ++ "\": " ++ e, st1)
      | .ok _ => chLoop f idx (i + 1) rest st1 kb1
    else if f.full then
      chLoop f idx (i + 1) rest st (ch.entries.foldl (fun k e => kbInsert k ch.package e.name) kb)
    else if versionRange ≠ "" then
      match parseConstraint versionRange with
      | .error e => .error ("error parsing version range: " ++ e, st)
      | .ok rangeConstraint =>
        match channelHead ch with
        | .error e => .error (e, st)
        | .ok headName =>
          let keepEntries := filterByVersionRange ch headName rangeConstraint
            ((mapGet? idx.bundleVersionsByPkgAndName ch.package).getD [])
          if keepEntries.isEmpty then
            .error ("package \"" ++ ch.package ++ "\" channel \"" ++ ch.name ++
              "\" has version range \"" ++ versionRange ++ "\" that results in an empty channel", st)
          else
            let keepLeft := ch.entries.filter (fun e => keepEntries.contains e.name)
            let st1 := { st with channels := st.channels.set i { ch with entries := keepLeft } }
            chLoop f idx (i + 1) rest st1 (kbUnion kb ch.package keepEntries)
    else
      match channelHead ch with
      | .error e =>
        .error ("package \"" ++ ch.package ++ "\" channel \"" ++ ch.name ++
          "\" unable to filter head of channel: " ++ e, st)
      | .ok headName =>
        -- `filterChannelHead`: the channel keeps only the head's entry,
        -- looked up in the index.
        let entry := (mapGet? ((mapGet? ((mapGet? idx.channelEntries ch.package).getD []) ch.name).getD [])
          headName).getD default
        let st1 := { st with channels := st.channels.set i { ch with entries := [entry] } }
        chLoop f idx (i + 1) rest st1 (kbInsert kb ch.package headName)

/-- The bundle-reassembly pass at the end of `FilterCatalog`: look every kept
name up in the bundle index, silently skipping names without a bundle.  The
Go map iteration order is unspecified; the association-list order used here
is washed out by the sort that follows. -/
def rebuildBundles (index : OperatorIndex) (keepBundles : List (String × List String)) :
    List Bundle :=
  keepBundles.flatMap (fun pb =>
    pb.2.filterMap (fun b => mapGet? ((mapGet? index.bundlesByPkgAndName pb.1).getD []) b))

/-- The body of `FilterCatalog` after the initial pruning: build the index,
run the packages loop and the channels loop, and if any bundles were
collected rebuild the sorted bundle list and prune deprecations.  Errors
carry the state of the operated-on catalog object when the error return was
taken. -/
def filterCatalogSteps (f : MirrorFilter) (st0 : DeclarativeConfig) :
    Except (String × DeclarativeConfig) DeclarativeConfig :=
  match indexFromDeclCfg st0 with
  | .error e => .error (e, st0)
  | .ok idx =>
    match pkgLoop f 0 st0.packages st0 idx with
    | .error es => .error es
    | .ok (st1, idx1) =>
      match chLoop f idx1 0 st1.channels st1 [] with
      | .error es => .error es
      | .ok (st2, kb) =>
        if kb.isEmpty then .ok st2
        else .ok (filterDeprecations { st2 with bundles := sortBundles (rebuildBundles idx1 kb) } idx1 kb)

/-- The catalog object `FilterCatalog` operates on: a fresh pruned catalog
when packages are configured, otherwise — by `filteredFBC = fbc` — the input
object itself. -/
def prunedInput (f : MirrorFilter) (fbc : DeclarativeConfig) : DeclarativeConfig :=
  if f.pkgConfigs.isEmpty then fbc else filterByPackageAndChannels f fbc

/-- `FilterCatalog` (first/normative variant): the value returned to the
caller.  The `fbc == nil` early exit has no counterpart for a non-nullable
model value.  The source returns a partially filtered catalog alongside the
index-build error; all error returns are collapsed into `Except.error`. -/
def FilterCatalog (f : MirrorFilter) (fbc : DeclarativeConfig) : Except String DeclarativeConfig :=
  match filterCatalogSteps f (prunedInput f fbc) with
  | .ok out => .ok out
  | .error es => .error es.1

/-- The state of the caller's catalog object after `FilterCatalog` returns,
under Go aliasing semantics: when no packages are configured the source
executes `filteredFBC = fbc` and every subsequent field write lands on the
caller's object; otherwise the caller's struct fields are not reassigned
(sharing of slice backing stores between the fresh catalog and the input is
beyond this model and left out). -/
def FilterCatalog_inputAfter (f : MirrorFilter) (fbc : DeclarativeConfig) : DeclarativeConfig :=
  if f.pkgConfigs.isEmpty then
    match filterCatalogSteps f fbc with
    | .ok out => out
    | .error es => es.2
  else fbc



/-! ## Concrete instances used by the claim theorems -/

deriving instance DecidableEq for Except

/-- A property list carrying one `olm.package` version property. -/
def bProp (v : String) : List BundleProperty := [⟨TypePackage, v⟩]

/-- C1: the empty configuration with `InFull(true)`. -/
def filterC1 : MirrorFilter := NewMirrorFilter {} true

/-- C1: one package, one channel with two entries, bundle list out of
lexicographic order. -/
def fbcC1 : DeclarativeConfig :=
  { packages := [⟨"p", "ch"⟩]
    channels := [⟨"p", "ch", [⟨"p.v2", "p.v1", []⟩, ⟨"p.v1", "", []⟩]⟩]
    bundles := [⟨"p", "p.v2", bProp "2.0.0"⟩, ⟨"p", "p.v1", bProp "1.0.0"⟩] }

/-- C1: `fbcC1` with its bundle list rebuilt in sorted order. -/
def outC1 : DeclarativeConfig :=
  { fbcC1 with bundles := [⟨"p", "p.v1", bProp "1.0.0"⟩, ⟨"p", "p.v2", bProp "2.0.0"⟩] }

/-- C2: the empty configuration with `InFull(true)`. -/
def filterC2 : MirrorFilter := NewMirrorFilter {} true

/-- C2: one package, one channel with two entries, bundle list out of
lexicographic order. -/
def fbcC2 : DeclarativeConfig :=
  { packages := [⟨"q", "qch"⟩]
    channels := [⟨"q", "qch", [⟨"q.v2", "q.v1", []⟩, ⟨"q.v1", "", []⟩]⟩]
    bundles := [⟨"q", "q.v2", bProp "2.0.0"⟩, ⟨"q", "q.v1", bProp "1.0.0"⟩] }

/-- C2: `fbcC2` with its bundle list rebuilt in sorted order. -/
def outC2 : DeclarativeConfig :=
  { fbcC2 with bundles := [⟨"q", "q.v1", bProp "1.0.0"⟩, ⟨"q", "q.v2", bProp "2.0.0"⟩] }

/-- C3: the configuration selecting package `foo` only, default mode. -/
def filterC3 : MirrorFilter := NewMirrorFilter { packages := [{ name := "foo" }] } false

/-- C3: package `foo` with channels `ch1` (default) and `ch2`, and a
deprecation whose entry references channel `ch2`. -/
def fbcC3 : DeclarativeConfig :=
  { packages := [⟨"foo", "ch1"⟩]
    channels := [⟨"foo", "ch1", [⟨"b1", "", []⟩]⟩, ⟨"foo", "ch2", [⟨"b2", "", []⟩]⟩]
    bundles := [⟨"foo", "b1", bProp "1.0.0"⟩, ⟨"foo", "b2", bProp "2.0.0"⟩]
    deprecations := [⟨"foo", [⟨⟨SchemaChannel, "ch2"⟩⟩]⟩] }

/-- C3: what `FilterCatalog filterC3 fbcC3` returns: only channel `ch1`
survives, yet the deprecation entry for `ch2` is still present. -/
def outC3 : DeclarativeConfig :=
  { packages := [⟨"foo", "ch1"⟩]
    channels := [⟨"foo", "ch1", [⟨"b1", "", []⟩]⟩]
    bundles := [⟨"foo", "b1", bProp "1.0.0"⟩]
    deprecations := [⟨"foo", [⟨⟨SchemaChannel, "ch2"⟩⟩]⟩] }

/-- C5: configuration with package `foo` carrying a version range, under
`InFull(true)`. -/
def filterC5 : MirrorFilter :=
  NewMirrorFilter { packages := [⟨"foo", "", ">=1.0.0", [], []⟩] } true

/-- C5 (counterexample input): the empty catalog — it contains no channel of
`foo`, so the channels loop never examines the conflicting range. -/
def fbcC5 : DeclarativeConfig := {}

/-- C5 (witness input): a catalog that does contain a channel of `foo`. -/
def fbcC5w : DeclarativeConfig :=
  { packages := [⟨"foo", "ch"⟩]
    channels := [⟨"foo", "ch", [⟨"b", "", []⟩]⟩]
    bundles := [⟨"foo", "b", bProp "1.0.0"⟩] }


/-- C5 witness plumbing: the index built from the pruned witness catalog. -/
def idxC5w : OperatorIndex :=
  match indexFromDeclCfg (prunedInput filterC5 fbcC5w) with
  | .ok i => i
  | .error _ => default

/-- C5 witness plumbing: the state after the packages loop on the witness
catalog. -/
def pkgResC5w : DeclarativeConfig × OperatorIndex :=
  match pkgLoop filterC5 0 (prunedInput filterC5 fbcC5w).packages (prunedInput filterC5 fbcC5w) idxC5w with
  | .ok r => r
  | .error _ => (default, default)


/-- The `keepBundles` accumulation performed by the channels loop in full
mode: for every channel, insert all its entry names under its package. -/
def collectKb (kb : List (String × List String)) (chs : List Channel) :
    List (String × List String) :=
  chs.foldl (fun k ch => ch.entries.foldl (fun k2 e => kbInsert k2 ch.package e.name) k) kb

/-- Membership of a name under a package key in a name-set map. -/
def memKb (kb : List (String × List String)) (p x : String) : Prop :=
  ∃ ns, mapGet? kb p = some ns ∧ x ∈ ns

/-- Well-formedness of a name-set map: keys pairwise distinct, sets
duplicate-free. -/
def KbWF (kb : List (String × List String)) : Prop :=
  (kb.map Prod.fst).Nodup ∧ ∀ pr ∈ kb, pr.2.Nodup

/-- Nested lookup in a two-level map. -/
def lookup2 {α : Type} (m : List (String × List (String × α))) (p n : String) : Option α :=
  mapGet? ((mapGet? m p).getD []) n

/-- The channel-name accumulation of the index build. -/
def chNamesFold (m : List (String × List String)) (chs : List Channel) :
    List (String × List String) :=
  chs.foldl (fun acc c => kbInsert acc c.package c.name) m


/-- C2 witness plumbing: a catalog in the normal form the amended claim
describes — bundles sorted and entry-referenced, deprecation references
resolvable. -/
def fbcC2w : DeclarativeConfig :=
  { packages := [⟨"r", "rch"⟩]
    channels := [⟨"r", "rch", [⟨"rb1", "", []⟩]⟩]
    bundles := [⟨"r", "rb1", bProp "1.0.0"⟩]
    deprecations := [⟨"r", [⟨⟨SchemaBundle, "rb1"⟩⟩, ⟨⟨SchemaChannel, "rch"⟩⟩]⟩]
    others := [⟨"olm.x", "r", "m1"⟩] }

/-- C2 witness plumbing: the index built from the witness catalog. -/
def idxC2w : OperatorIndex :=
  match indexFromDeclCfg fbcC2w with
  | .ok i => i
  | .error _ => default

/-! ## Helper lemmas -/

theorem strLtAux_irrefl (l : List Char) : strLtAux l l = false := by
  induction l with
  | nil => rfl
  | cons a as ih => simp [strLtAux, ih]

theorem strLtAux_asymm (a b : List Char) (h : strLtAux a b = true) : strLtAux b a = false := by
  induction a generalizing b with
  | nil =>
    cases b with
    | nil => simp [strLtAux] at h
    | cons x xs => simp [strLtAux]
  | cons x xs ih =>
    cases b with
    | nil => simp [strLtAux] at h
    | cons y ys =>
      simp only [strLtAux] at h ⊢
      rcases lt_trichotomy x y with h1 | h1 | h1
      · simp [h1, not_lt_of_lt h1]
      · subst h1
        simp [lt_irrefl] at h ⊢
        exact ih _ h
      · simp [h1, not_lt_of_lt h1] at h

theorem strLtAux_trans (a b c : List Char) (hab : strLtAux a b = true) (hbc : strLtAux b c = true) :
    strLtAux a c = true := by
  induction a generalizing b c with
  | nil =>
    cases c with
    | nil =>
      cases b with
      | nil => exact hab
      | cons y ys => simp [strLtAux] at hbc
    | cons z zs => simp [strLtAux]
  | cons x xs ih =>
    cases b with
    | nil => simp [strLtAux] at hab
    | cons y ys =>
      cases c with
      | nil => simp [strLtAux] at hbc
      | cons z zs =>
        simp only [strLtAux] at hab hbc ⊢
        rcases lt_trichotomy x y with h1 | h1 | h1
        · rcases lt_trichotomy y z with h2 | h2 | h2
          · simp [lt_trans h1 h2]
          · subst h2; simp [h1]
          · simp [h2, not_lt_of_lt h2] at hbc
        · subst h1
          rcases lt_trichotomy x z with h2 | h2 | h2
          · simp [h2]
          · subst h2
            simp [lt_irrefl] at hab hbc ⊢
            exact ih _ _ hab hbc
          · simp [h2, not_lt_of_lt h2] at hbc
        · simp [h1, not_lt_of_lt h1] at hab

theorem strLtAux_eq_of_not_lt (a b : List Char) (h1 : strLtAux a b = false)
    (h2 : strLtAux b a = false) : a = b := by
  induction a generalizing b with
  | nil =>
    cases b with
    | nil => rfl
    | cons y ys => simp [strLtAux] at h1
  | cons x xs ih =>
    cases b with
    | nil => simp [strLtAux] at h2
    | cons y ys =>
      simp only [strLtAux] at h1 h2
      rcases lt_trichotomy x y with hx | hx | hx
      · simp [hx] at h1
      · subst hx
        simp [lt_irrefl] at h1 h2
        rw [ih _ h1 h2]
      · simp [hx, not_lt_of_lt hx] at h2

theorem strLt_irrefl (a : String) : strLt a a = false := strLtAux_irrefl a.data

theorem strLt_asymm (a b : String) (h : strLt a b = true) : strLt b a = false :=
  strLtAux_asymm a.data b.data h

theorem strLt_trans (a b c : String) (hab : strLt a b = true) (hbc : strLt b c = true) :
    strLt a c = true := strLtAux_trans a.data b.data c.data hab hbc

theorem strLt_eq_of_not_lt (a b : String) (h1 : strLt a b = false) (h2 : strLt b a = false) :
    a = b := by
  have h := strLtAux_eq_of_not_lt a.data b.data h1 h2
  cases a with
  | mk da =>
    cases b with
    | mk db => simp only [String.data] at h; rw [h]

theorem mapGet?_mapInsert {α : Type} (m : List (String × α)) (k k' : String) (v : α) :
    mapGet? (mapInsert m k v) k' = if k = k' then some v else mapGet? m k' := by
  induction m with
  | nil => simp [mapInsert, mapGet?]
  | cons p rest ih =>
    obtain ⟨pk, pv⟩ := p
    by_cases h1 : pk = k
    · subst h1
      by_cases h2 : pk = k' <;> simp [mapInsert, mapGet?, h2]
    · by_cases h2 : pk = k'
      · subst h2
        simp [mapInsert, mapGet?, h1, Ne.symm h1]
      · simp [mapInsert, mapGet?, h1, h2, ih]

/-! ## Claim theorems -/

set_option maxRecDepth 10000

/-- C1: the claim states that `FilterCatalog` never mutates the input
catalog and that the returned catalog is a fresh object distinct from the
input.  In the code, with an empty configuration the function operates on
the caller's object itself (`filteredFBC = fbc`), so the final bundle
reassembly rewrites the input's `Bundles` field in place: at this concrete
input the post-call state of the input object differs from its pre-call
state, and the returned catalog is exactly that mutated input object — the
bundle list rebuilt in sorted order rather than left as supplied. -/
theorem filterCatalog_mutates_aliased_input :
    FilterCatalog_inputAfter filterC1 fbcC1 ≠ fbcC1 ∧
    FilterCatalog filterC1 fbcC1 = .ok (FilterCatalog_inputAfter filterC1 fbcC1) ∧
    FilterCatalog_inputAfter filterC1 fbcC1 = outC1 := by decide

/-- C2 (counterexample): the claim states that an empty configuration under
`InFull(true)` returns the input catalog unchanged, with the same bundles in
the same order.  On this catalog, whose two bundles are listed out of
lexicographic order, the call succeeds but returns the catalog with the
bundle list rebuilt in sorted order, so the result differs from the input. -/
theorem filterCatalog_emptyFull_reorders_bundles :
    FilterCatalog filterC2 fbcC2 = .ok outC2 ∧ outC2 ≠ fbcC2 := by decide

/-- C3: the claim states that every deprecation entry in the output
references only objects present in the output, in particular that a
channel-schema entry names a channel existing in the output's channel list.
`filterDeprecations` however tests channel references against the index
built before `keepPackageDefaultChannel` pruned the channel list, so on this
accepted configuration and valid catalog the call succeeds, channel `ch2` is
pruned from the output, and yet the deprecation entry referencing `ch2`
survives. -/
theorem filterCatalog_stale_channel_deprecation :
    FilterCatalog filterC3 fbcC3 = .ok outC3 ∧
    outC3.deprecations.any (fun d => d.entries.any (fun e =>
      decide (e.reference.schema = SchemaChannel) && decide (e.reference.name = "ch2"))) = true ∧
    (∀ ch ∈ outC3.channels, ch.name ≠ "ch2") := by decide

/-- C5 (counterexample): the claim states that `InFull(true)` combined with
any configured versionRange makes `FilterCatalog` fail with the mode-conflict
error.  The conflict is only detected while walking the filtered catalog's
channels, so on the empty catalog — which has no channel of the configured
package — the very same filter succeeds. -/
theorem filterCatalog_full_versionRange_no_error_on_empty_catalog :
    FilterCatalog filterC5 fbcC5 = .ok ({} : DeclarativeConfig) := by decide

theorem mapGet?_mem {α : Type} {m : List (String × α)} {k : String} {v : α}
    (h : mapGet? m k = some v) : (k, v) ∈ m := by
  induction m with
  | nil => simp [mapGet?] at h
  | cons p rest ih =>
    obtain ⟨pk, pv⟩ := p
    by_cases hk : pk = k
    · subst hk
      simp [mapGet?] at h
      simp [h]
    · simp [mapGet?, hk] at h
      exact List.mem_cons_of_mem _ (ih h)

/-- In full mode with no bundle selections anywhere, the channels loop fails
with the versionRange mode-conflict error — leaving the catalog state
untouched — as soon as some channel in the remaining list has a non-empty
effective version range. -/
theorem chLoop_full_vr_error (f : MirrorFilter) (idx : OperatorIndex)
    (hfull : f.full = true)
    (hsb : ∀ pr ∈ f.pkgConfigs, pr.2.selectedBundles = ([] : List SelectedBundle)) :
    ∀ (chs : List Channel) (i : Nat) (st : DeclarativeConfig) (kb : List (String × List String)),
      (∃ ch ∈ chs, effectiveVersionRange f ch ≠ "") →
      chLoop f idx i chs st kb = .error ("Full: true cannot be mixed with versionRange", st) := by
  intro chs
  induction chs with
  | nil =>
    intro i st kb h
    simp at h
  | cons ch rest ih =>
    intro i st kb h
    have hsbch : ((mapGet? f.pkgConfigs ch.package).getD default).selectedBundles =
        ([] : List SelectedBundle) := by
      cases hm : mapGet? f.pkgConfigs ch.package with
      | none => rfl
      | some pr => simpa using hsb _ (mapGet?_mem hm)
    by_cases hvr : effectiveVersionRange f ch = ""
    · have hrest : ∃ c ∈ rest, effectiveVersionRange f c ≠ "" := by
        rcases h with ⟨c, hc, hcvr⟩
        rcases List.mem_cons.mp hc with rfl | hc2
        · exact absurd hvr hcvr
        · exact ⟨c, hc2, hcvr⟩
      simp [chLoop, hvr, hsbch, hfull]
      exact ih (i + 1) st _ hrest
    · simp only [chLoop]
      rw [if_pos ⟨hfull, hvr⟩]

/-- C4: `FilterCatalog` reconciles a retained configured package's default
channel through `setDefaultChannel`, called with the package's surviving
channel-name set, as a three-way case split: if neither the catalog package
nor the package filter specifies a default channel, the package is returned
untouched with no error; if the filter specifies an override, the call fails
with the *specified default channel override ... does not exist in the
filtered output* error exactly when the override is not among the surviving
channel names, and otherwise the override becomes the package's default;
if no override is configured, the call fails with the *the default channel
... was filtered out, a new default channel must be configured for this
package* error exactly when the catalog's default channel is not among the
surviving names, and otherwise the package is returned untouched. -/
theorem setDefaultChannel_three_way (pkg : Package) (cfg : FilterPackage)
    (channels : List String) :
    (pkg.defaultChannel = "" ∧ cfg.defaultChannel = "" →
      setDefaultChannel pkg cfg channels = .ok pkg) ∧
    (cfg.defaultChannel ≠ "" →
      (channels.contains cfg.defaultChannel = false →
        setDefaultChannel pkg cfg channels =
          .error ("specified default channel override \"" ++ cfg.defaultChannel ++
            "\" does not exist in the filtered output")) ∧
      (channels.contains cfg.defaultChannel = true →
        setDefaultChannel pkg cfg channels =
          .ok { pkg with defaultChannel := cfg.defaultChannel })) ∧
    (cfg.defaultChannel = "" → pkg.defaultChannel ≠ "" →
      (channels.contains pkg.defaultChannel = false →
        setDefaultChannel pkg cfg channels =
          .error ("the default channel \"" ++ pkg.defaultChannel ++
            "\" was filtered out, a new default channel must be configured for this package")) ∧
      (channels.contains pkg.defaultChannel = true →
        setDefaultChannel pkg cfg channels = .ok pkg)) := by
  refine ⟨?_, ?_, ?_⟩
  · rintro ⟨h1, h2⟩
    simp [setDefaultChannel, h1, h2]
  · intro hcfg
    constructor
    · intro hc
      simp [setDefaultChannel, hcfg, hc]
      simpa using hc
    · intro hc
      simp [setDefaultChannel, hcfg, hc]
      simpa using hc
  · intro hcfg hpkg
    constructor
    · intro hc
      simp [setDefaultChannel, hcfg, hpkg, hc]
      simpa using hc
    · intro hc
      simp [setDefaultChannel, hcfg, hpkg, hc]
      simpa using hc

/-- C4 witness: the cases of `setDefaultChannel_three_way` discharged at
concrete inputs. -/
theorem setDefaultChannel_three_way_witness :
    setDefaultChannel ⟨"p", ""⟩ ⟨"p", "", "", [], []⟩ [] = .ok ⟨"p", ""⟩ ∧
    setDefaultChannel ⟨"p", "ch1"⟩ ⟨"p", "ch2", "", [], []⟩ ["ch1"] =
      .error "specified default channel override \"ch2\" does not exist in the filtered output" ∧
    setDefaultChannel ⟨"p", "ch1"⟩ ⟨"p", "ch2", "", [], []⟩ ["ch2", "ch1"] =
      .ok ⟨"p", "ch2"⟩ ∧
    setDefaultChannel ⟨"p", "ch1"⟩ ⟨"p", "", "", [], []⟩ ["ch2"] =
      .error "the default channel \"ch1\" was filtered out, a new default channel must be configured for this package" :=
  ⟨(setDefaultChannel_three_way ⟨"p", ""⟩ ⟨"p", "", "", [], []⟩ []).1 ⟨rfl, rfl⟩,
   ((setDefaultChannel_three_way ⟨"p", "ch1"⟩ ⟨"p", "ch2", "", [], []⟩ ["ch1"]).2.1
      (by decide)).1 (by decide),
   ((setDefaultChannel_three_way ⟨"p", "ch1"⟩ ⟨"p", "ch2", "", [], []⟩ ["ch2", "ch1"]).2.1
      (by decide)).2 (by decide),
   ((setDefaultChannel_three_way ⟨"p", "ch1"⟩ ⟨"p", "", "", [], []⟩ ["ch2"]).2.2
      rfl (by decide)).1 (by decide)⟩

/-- C5 (amended): if the filter was built with `InFull(true)`, no configured
package selects bundles, the index build and the packages loop succeed, and
the catalog that reaches the channels loop still contains a channel whose
effective version range (channel filter's range, else package filter's
range) is non-empty, then `FilterCatalog` fails with the error *Full: true
cannot be mixed with versionRange*. -/
theorem filterCatalog_full_versionRange_errors (f : MirrorFilter)
    (fbc st1 : DeclarativeConfig) (idx idx1 : OperatorIndex)
    (hfull : f.full = true)
    (hsb : ∀ pr ∈ f.pkgConfigs, pr.2.selectedBundles = ([] : List SelectedBundle))
    (hidx : indexFromDeclCfg (prunedInput f fbc) = .ok idx)
    (hpkg : pkgLoop f 0 (prunedInput f fbc).packages (prunedInput f fbc) idx = .ok (st1, idx1))
    (hvr : ∃ ch ∈ st1.channels, effectiveVersionRange f ch ≠ "") :
    FilterCatalog f fbc = .error "Full: true cannot be mixed with versionRange" := by
  have hch := chLoop_full_vr_error f idx1 hfull hsb st1.channels 0 st1 [] hvr
  simp only [FilterCatalog, filterCatalogSteps, hidx, hpkg, hch]

/-- C5 witness: at a concrete full-mode filter with a package versionRange
and a catalog containing a channel of that package, every hypothesis of
`filterCatalog_full_versionRange_errors` holds and the call fails with the
mode-conflict error. -/
theorem filterCatalog_full_versionRange_errors_witness :
    FilterCatalog filterC5 fbcC5w = .error "Full: true cannot be mixed with versionRange" :=
  filterCatalog_full_versionRange_errors filterC5 fbcC5w pkgResC5w.1 idxC5w pkgResC5w.2
    rfl (by decide) (by decide) (by decide) (by decide)

/-! ## Lemmas on sets and name-set maps -/

theorem setInsert_mem (s : List String) (x y : String) :
    y ∈ setInsert s x ↔ y ∈ s ∨ y = x := by
  by_cases hx : x ∈ s
  · simp [setInsert, hx]
    intro hyx
    subst hyx
    exact hx
  · simp [setInsert, hx]

theorem setInsert_nodup (s : List String) (x : String) (h : s.Nodup) :
    (setInsert s x).Nodup := by
  by_cases hx : x ∈ s
  · simpa [setInsert, hx] using h
  · simp [setInsert, hx, List.nodup_append, h]

theorem mapGet?_none_iff {α : Type} (m : List (String × α)) (k : String) :
    mapGet? m k = none ↔ k ∉ m.map Prod.fst := by
  induction m with
  | nil => simp [mapGet?]
  | cons hd tl ih =>
    obtain ⟨hk, hv⟩ := hd
    by_cases hkk : hk = k
    · subst hkk
      simp [mapGet?]
    · simp [mapGet?, hkk, ih, Ne.symm hkk]

theorem mapInsert_keys_none {α : Type} (m : List (String × α)) (k : String) (v : α)
    (h : mapGet? m k = none) : (mapInsert m k v).map Prod.fst = m.map Prod.fst ++ [k] := by
  induction m with
  | nil => simp [mapInsert]
  | cons hd tl ih =>
    obtain ⟨hk, hv⟩ := hd
    by_cases hkk : hk = k
    · subst hkk
      simp [mapGet?] at h
    · simp [mapGet?, hkk] at h
      simp [mapInsert, hkk, ih h]

theorem mapInsert_keys_some {α : Type} (m : List (String × α)) (k : String) (v w : α)
    (h : mapGet? m k = some w) : (mapInsert m k v).map Prod.fst = m.map Prod.fst := by
  induction m with
  | nil => simp [mapGet?] at h
  | cons hd tl ih =>
    obtain ⟨hk, hv⟩ := hd
    by_cases hkk : hk = k
    · subst hkk
      simp [mapInsert]
    · simp [mapGet?, hkk] at h
      simp [mapInsert, hkk, ih h]

theorem mapInsert_mem {α : Type} (m : List (String × α)) (k : String) (v : α)
    (pr : String × α) (h : pr ∈ mapInsert m k v) : pr = (k, v) ∨ pr ∈ m := by
  induction m with
  | nil => simpa [mapInsert] using h
  | cons hd tl ih =>
    obtain ⟨hk, hv⟩ := hd
    by_cases hkk : hk = k
    · subst hkk
      simp [mapInsert] at h
      rcases h with h | h
      · exact Or.inl (by simp [h])
      · exact Or.inr (List.mem_cons_of_mem _ h)
    · simp [mapInsert, hkk] at h
      rcases h with h | h
      · exact Or.inr (by simp [h])
      · rcases ih h with h2 | h2
        · exact Or.inl h2
        · exact Or.inr (List.mem_cons_of_mem _ h2)

theorem kbInsert_WF (kb : List (String × List String)) (p x : String) (h : KbWF kb) :
    KbWF (kbInsert kb p x) := by
  obtain ⟨hkeys, hvals⟩ := h
  have hval_step : ∀ (s : List String), s.Nodup →
      ∀ pr ∈ mapInsert kb p (setInsert s x), pr.2.Nodup := by
    intro s hs pr hpr
    rcases mapInsert_mem kb p (setInsert s x) pr hpr with h2 | h2
    · subst h2
      exact setInsert_nodup s x hs
    · exact hvals pr h2
  constructor
  · unfold kbInsert
    cases hm : mapGet? kb p with
    | none =>
      rw [mapInsert_keys_none kb p _ hm]
      simp [List.nodup_append, hkeys]
      intro s hs
      exact (mapGet?_none_iff kb p).mp hm (List.mem_map.mpr ⟨(p, s), hs, rfl⟩)
    | some s =>
      rw [mapInsert_keys_some kb p _ s hm]
      exact hkeys
  · unfold kbInsert
    cases hm : mapGet? kb p with
    | none => exact hval_step [] List.nodup_nil
    | some s => exact hval_step s (hvals (p, s) (mapGet?_mem hm))

theorem memKb_kbInsert (kb : List (String × List String)) (p x q y : String) :
    memKb (kbInsert kb p x) q y ↔ memKb kb q y ∨ (p = q ∧ x = y) := by
  unfold memKb kbInsert
  by_cases hpq : p = q
  · subst hpq
    cases hm : mapGet? kb p with
    | none =>
      constructor
      · rintro ⟨ns, hns, hy⟩
        rw [mapGet?_mapInsert, if_pos rfl] at hns
        cases hns
        rcases (setInsert_mem [] x y).mp hy with h2 | h2
        · simp at h2
        · exact Or.inr ⟨rfl, h2.symm⟩
      · rintro (⟨ns, hns, hy⟩ | ⟨-, hxy⟩)
        · simp at hns
        · exact ⟨setInsert [] x, by rw [mapGet?_mapInsert, if_pos rfl],
            (setInsert_mem [] x y).mpr (Or.inr hxy.symm)⟩
    | some s =>
      constructor
      · rintro ⟨ns, hns, hy⟩
        rw [mapGet?_mapInsert, if_pos rfl] at hns
        cases hns
        rcases (setInsert_mem s x y).mp hy with h2 | h2
        · exact Or.inl ⟨s, rfl, h2⟩
        · exact Or.inr ⟨rfl, h2.symm⟩
      · rintro (⟨ns, hns, hy⟩ | ⟨-, hxy⟩)
        · cases hns
          exact ⟨setInsert s x, by rw [mapGet?_mapInsert, if_pos rfl],
            (setInsert_mem s x y).mpr (Or.inl hy)⟩
        · exact ⟨setInsert s x, by rw [mapGet?_mapInsert, if_pos rfl],
            (setInsert_mem s x y).mpr (Or.inr hxy.symm)⟩
  · cases hm : mapGet? kb p with
    | none =>
      constructor
      · rintro ⟨ns, hns, hy⟩
        rw [mapGet?_mapInsert, if_neg hpq] at hns
        exact Or.inl ⟨ns, hns, hy⟩
      · rintro (⟨ns, hns, hy⟩ | ⟨hpq2, -⟩)
        · exact ⟨ns, by rw [mapGet?_mapInsert, if_neg hpq]; exact hns, hy⟩
        · exact absurd hpq2 hpq
    | some s =>
      constructor
      · rintro ⟨ns, hns, hy⟩
        rw [mapGet?_mapInsert, if_neg hpq] at hns
        exact Or.inl ⟨ns, hns, hy⟩
      · rintro (⟨ns, hns, hy⟩ | ⟨hpq2, -⟩)
        · exact ⟨ns, by rw [mapGet?_mapInsert, if_neg hpq]; exact hns, hy⟩
        · exact absurd hpq2 hpq

theorem key_kbInsert (kb : List (String × List String)) (p x q : String) :
    (mapGet? (kbInsert kb p x) q).isSome ↔ (mapGet? kb q).isSome ∨ p = q := by
  unfold kbInsert
  cases hm : mapGet? kb p with
  | none =>
    by_cases hpq : p = q
    · subst hpq
      simp [mapGet?_mapInsert, hm]
    · simp [mapGet?_mapInsert, hpq]
  | some s =>
    by_cases hpq : p = q
    · subst hpq
      simp [mapGet?_mapInsert, hm]
    · simp [mapGet?_mapInsert, hpq]

theorem memKb_entriesFold (es : List ChannelEntry) (p : String) :
    ∀ (kb : List (String × List String)) (q y : String),
      memKb (es.foldl (fun k e => kbInsert k p e.name) kb) q y ↔
        memKb kb q y ∨ (p = q ∧ ∃ e ∈ es, e.name = y) := by
  induction es with
  | nil => simp
  | cons e rest ih =>
    intro kb q y
    simp only [List.foldl_cons]
    rw [ih]
    rw [memKb_kbInsert]
    constructor
    · rintro ((h | ⟨hpq, hxy⟩) | ⟨hpq, e2, he2, hn⟩)
      · exact Or.inl h
      · exact Or.inr ⟨hpq, e, List.mem_cons_self e rest, hxy⟩
      · exact Or.inr ⟨hpq, e2, List.mem_cons_of_mem _ he2, hn⟩
    · rintro (h | ⟨hpq, e2, he2, hn⟩)
      · exact Or.inl (Or.inl h)
      · rcases List.mem_cons.mp he2 with rfl | he3
        · exact Or.inl (Or.inr ⟨hpq, hn⟩)
        · exact Or.inr ⟨hpq, e2, he3, hn⟩

theorem key_entriesFold (es : List ChannelEntry) (p : String) :
    ∀ (kb : List (String × List String)) (q : String),
      (mapGet? (es.foldl (fun k e => kbInsert k p e.name) kb) q).isSome ↔
        (mapGet? kb q).isSome ∨ (p = q ∧ es ≠ []) := by
  induction es with
  | nil => simp
  | cons e rest ih =>
    intro kb q
    simp only [List.foldl_cons]
    rw [ih]
    rw [key_kbInsert]
    constructor
    · rintro ((h | h) | ⟨hpq, -⟩)
      · exact Or.inl h
      · exact Or.inr ⟨h, by simp⟩
      · exact Or.inr ⟨hpq, by simp⟩
    · rintro (h | ⟨hpq, -⟩)
      · exact Or.inl (Or.inl h)
      · exact Or.inl (Or.inr hpq)

theorem entriesFold_WF (es : List ChannelEntry) (p : String) :
    ∀ (kb : List (String × List String)), KbWF kb →
      KbWF (es.foldl (fun k e => kbInsert k p e.name) kb) := by
  induction es with
  | nil => intro kb h; exact h
  | cons e rest ih =>
    intro kb h
    simp only [List.foldl_cons]
    exact ih _ (kbInsert_WF kb p e.name h)

theorem memKb_collectKb (chs : List Channel) :
    ∀ (kb : List (String × List String)) (q y : String),
      memKb (collectKb kb chs) q y ↔
        memKb kb q y ∨ ∃ ch ∈ chs, ch.package = q ∧ ∃ e ∈ ch.entries, e.name = y := by
  induction chs with
  | nil => simp [collectKb]
  | cons ch rest ih =>
    intro kb q y
    unfold collectKb
    simp only [List.foldl_cons]
    rw [show (List.foldl (fun k c => c.entries.foldl (fun k2 e => kbInsert k2 c.package e.name) k)
      (ch.entries.foldl (fun k2 e => kbInsert k2 ch.package e.name) kb) rest) =
      collectKb (ch.entries.foldl (fun k2 e => kbInsert k2 ch.package e.name) kb) rest from rfl]
    rw [ih]
    rw [memKb_entriesFold]
    constructor
    · rintro ((h | ⟨hpq, e, he, hn⟩) | ⟨c, hc, hcq, e, he, hn⟩)
      · exact Or.inl h
      · exact Or.inr ⟨ch, List.mem_cons_self ch rest, hpq, e, he, hn⟩
      · exact Or.inr ⟨c, List.mem_cons_of_mem _ hc, hcq, e, he, hn⟩
    · rintro (h | ⟨c, hc, hcq, e, he, hn⟩)
      · exact Or.inl (Or.inl h)
      · rcases List.mem_cons.mp hc with rfl | hc2
        · exact Or.inl (Or.inr ⟨hcq, e, he, hn⟩)
        · exact Or.inr ⟨c, hc2, hcq, e, he, hn⟩

theorem key_collectKb (chs : List Channel) :
    ∀ (kb : List (String × List String)) (q : String),
      (mapGet? (collectKb kb chs) q).isSome ↔
        (mapGet? kb q).isSome ∨ ∃ ch ∈ chs, ch.package = q ∧ ch.entries ≠ [] := by
  induction chs with
  | nil => simp [collectKb]
  | cons ch rest ih =>
    intro kb q
    unfold collectKb
    simp only [List.foldl_cons]
    rw [show (List.foldl (fun k c => c.entries.foldl (fun k2 e => kbInsert k2 c.package e.name) k)
      (ch.entries.foldl (fun k2 e => kbInsert k2 ch.package e.name) kb) rest) =
      collectKb (ch.entries.foldl (fun k2 e => kbInsert k2 ch.package e.name) kb) rest from rfl]
    rw [ih]
    rw [key_entriesFold]
    constructor
    · rintro ((h | ⟨hpq, hne⟩) | ⟨c, hc, hcq, hne⟩)
      · exact Or.inl h
      · exact Or.inr ⟨ch, List.mem_cons_self ch rest, hpq, hne⟩
      · exact Or.inr ⟨c, List.mem_cons_of_mem _ hc, hcq, hne⟩
    · rintro (h | ⟨c, hc, hcq, hne⟩)
      · exact Or.inl (Or.inl h)
      · rcases List.mem_cons.mp hc with rfl | hc2
        · exact Or.inl (Or.inr ⟨hcq, hne⟩)
        · exact Or.inr ⟨c, hc2, hcq, hne⟩

theorem collectKb_WF (chs : List Channel) :
    ∀ (kb : List (String × List String)), KbWF kb → KbWF (collectKb kb chs) := by
  induction chs with
  | nil => intro kb h; exact h
  | cons ch rest ih =>
    intro kb h
    unfold collectKb
    simp only [List.foldl_cons]
    exact ih _ (entriesFold_WF ch.entries ch.package kb h)

theorem memKb_chNamesFold (chs : List Channel) :
    ∀ (m : List (String × List String)) (q y : String),
      memKb (chNamesFold m chs) q y ↔
        memKb m q y ∨ ∃ ch ∈ chs, ch.package = q ∧ ch.name = y := by
  induction chs with
  | nil => simp [chNamesFold]
  | cons ch rest ih =>
    intro m q y
    unfold chNamesFold
    simp only [List.foldl_cons]
    rw [show (List.foldl (fun acc c => kbInsert acc c.package c.name)
      (kbInsert m ch.package ch.name) rest) =
      chNamesFold (kbInsert m ch.package ch.name) rest from rfl]
    rw [ih]
    rw [memKb_kbInsert]
    constructor
    · rintro ((h | ⟨hpq, hn⟩) | ⟨c, hc, hcq, hn⟩)
      · exact Or.inl h
      · exact Or.inr ⟨ch, List.mem_cons_self ch rest, hpq, hn⟩
      · exact Or.inr ⟨c, List.mem_cons_of_mem _ hc, hcq, hn⟩
    · rintro (h | ⟨c, hc, hcq, hn⟩)
      · exact Or.inl (Or.inl h)
      · rcases List.mem_cons.mp hc with rfl | hc2
        · exact Or.inl (Or.inr ⟨hcq, hn⟩)
        · exact Or.inr ⟨c, hc2, hcq, hn⟩

theorem key_chNamesFold (chs : List Channel) :
    ∀ (m : List (String × List String)) (q : String),
      (mapGet? (chNamesFold m chs) q).isSome ↔
        (mapGet? m q).isSome ∨ ∃ ch ∈ chs, ch.package = q := by
  induction chs with
  | nil => simp [chNamesFold]
  | cons ch rest ih =>
    intro m q
    unfold chNamesFold
    simp only [List.foldl_cons]
    rw [show (List.foldl (fun acc c => kbInsert acc c.package c.name)
      (kbInsert m ch.package ch.name) rest) =
      chNamesFold (kbInsert m ch.package ch.name) rest from rfl]
    rw [ih]
    rw [key_kbInsert]
    constructor
    · rintro ((h | h) | ⟨c, hc, hcq⟩)
      · exact Or.inl h
      · exact Or.inr ⟨ch, List.mem_cons_self ch rest, h⟩
      · exact Or.inr ⟨c, List.mem_cons_of_mem _ hc, hcq⟩
    · rintro (h | ⟨c, hc, hcq⟩)
      · exact Or.inl (Or.inl h)
      · rcases List.mem_cons.mp hc with rfl | hc2
        · exact Or.inl (Or.inr hcq)
        · exact Or.inr ⟨c, hc2, hcq⟩

/-! ## Characterization of the index build -/

theorem indexPackagesFold_channelNames (pkgs : List Package) :
    ∀ (i0 : OperatorIndex), (pkgs.foldl indexPackagesStep i0).channelNames = i0.channelNames := by
  induction pkgs with
  | nil => intro i0; rfl
  | cons p rest ih =>
    intro i0
    simp only [List.foldl_cons]
    rw [ih]
    rfl

theorem indexPackagesFold_bundles (pkgs : List Package) :
    ∀ (i0 : OperatorIndex),
      (pkgs.foldl indexPackagesStep i0).bundlesByPkgAndName = i0.bundlesByPkgAndName := by
  induction pkgs with
  | nil => intro i0; rfl
  | cons p rest ih =>
    intro i0
    simp only [List.foldl_cons]
    rw [ih]
    rfl

theorem indexChannelFold_channelNames (chs : List Channel) :
    ∀ (i0 : OperatorIndex),
      (chs.foldl indexChannelStep i0).channelNames = chNamesFold i0.channelNames chs := by
  induction chs with
  | nil => intro i0; rfl
  | cons c rest ih =>
    intro i0
    simp only [List.foldl_cons]
    rw [ih]
    rfl

theorem indexChannelFold_bundles (chs : List Channel) :
    ∀ (i0 : OperatorIndex),
      (chs.foldl indexChannelStep i0).bundlesByPkgAndName = i0.bundlesByPkgAndName := by
  induction chs with
  | nil => intro i0; rfl
  | cons c rest ih =>
    intro i0
    simp only [List.foldl_cons]
    rw [ih]
    rfl

theorem indexBundles_channelNames (bs : List Bundle) :
    ∀ (i0 i1 : OperatorIndex), indexBundles bs i0 = .ok i1 →
      i1.channelNames = i0.channelNames := by
  induction bs with
  | nil =>
    intro i0 i1 h
    simp [indexBundles] at h
    rw [h]
  | cons b rest ih =>
    intro i0 i1 h
    simp only [indexBundles] at h
    cases hs : indexBundlesStep i0 b with
    | error e => rw [hs] at h; cases h
    | ok i2 =>
      rw [hs] at h
      rw [ih i2 i1 h]
      unfold indexBundlesStep at hs
      cases hv : getBundleVersion b with
      | error e => rw [hv] at hs; cases hs
      | ok v =>
        rw [hv] at hs
        cases hs
        rfl

theorem indexBundles_lookup (bs : List Bundle) :
    ∀ (i0 i1 : OperatorIndex), indexBundles bs i0 = .ok i1 → ∀ (p n : String),
      lookup2 i1.bundlesByPkgAndName p n =
        match lookup2 i0.bundlesByPkgAndName p n with
        | some b => some b
        | none => bs.find? (fun b => decide (b.package = p) && decide (b.name = n)) := by
  induction bs with
  | nil =>
    intro i0 i1 h p n
    simp [indexBundles] at h
    rw [h]
    cases hl : lookup2 i1.bundlesByPkgAndName p n <;> simp [hl]
  | cons b rest ih =>
    intro i0 i1 h p n
    simp only [indexBundles] at h
    cases hv : getBundleVersion b with
    | error e =>
      unfold indexBundlesStep at h
      rw [hv] at h
      simp at h
    | ok v =>
      unfold indexBundlesStep at h
      rw [hv] at h
      dsimp only at h
      rw [ih _ _ h p n]
      dsimp only
      by_cases hp : b.package = p
      · subst hp
        by_cases hn : b.name = n
        · subst hn
          cases hb : mapGet? ((mapGet? i0.bundlesByPkgAndName b.package).getD []) b.name with
          | some b0 => simp [lookup2, mapGet?_mapInsert, hb]
          | none => simp [lookup2, mapGet?_mapInsert, hb, List.find?_cons]
        · cases hb : mapGet? ((mapGet? i0.bundlesByPkgAndName b.package).getD []) b.name with
          | some b0 =>
            simp only [lookup2, mapGet?_mapInsert, if_pos rfl, hb, Option.isSome_some,
              if_true, Option.getD_some]
            rw [List.find?_cons_of_neg]
            simp [hn]
          | none =>
            simp [lookup2, mapGet?_mapInsert, hb, hn, List.find?_cons_of_neg]
      · rw [List.find?_cons_of_neg]
        · simp only [lookup2, mapGet?_mapInsert, if_neg hp]
        · simp [hp]

theorem indexFromDeclCfg_channelNames (fbc : DeclarativeConfig) (idx : OperatorIndex)
    (h : indexFromDeclCfg fbc = .ok idx) : idx.channelNames = chNamesFold [] fbc.channels := by
  unfold indexFromDeclCfg at h
  have h1 := indexBundles_channelNames fbc.bundles _ idx h
  rw [h1, indexChannelFold_channelNames, indexPackagesFold_channelNames]
  rfl

theorem indexFromDeclCfg_lookup (fbc : DeclarativeConfig) (idx : OperatorIndex)
    (h : indexFromDeclCfg fbc = .ok idx) (p n : String) :
    lookup2 idx.bundlesByPkgAndName p n =
      fbc.bundles.find? (fun b => decide (b.package = p) && decide (b.name = n)) := by
  unfold indexFromDeclCfg at h
  have h1 := indexBundles_lookup fbc.bundles _ idx h p n
  rw [h1, indexChannelFold_bundles, indexPackagesFold_bundles]
  rfl

/-! ## The empty-configuration full-mode path of the loops -/

theorem pkgLoop_empty_full (f : MirrorFilter) (hpc : f.pkgConfigs = [])
    (hfull : f.full = true) :
    ∀ (pkgs : List Package) (i : Nat) (st : DeclarativeConfig) (idx : OperatorIndex),
      pkgLoop f i pkgs st idx = .ok (st, idx) := by
  intro pkgs
  induction pkgs with
  | nil => intro i st idx; rfl
  | cons p rest ih =>
    intro i st idx
    simp only [pkgLoop, hpc, mapGet?, hfull]
    simp [ih]

theorem chLoop_empty_full (f : MirrorFilter) (hpc : f.pkgConfigs = [])
    (hcc : f.chConfigs = []) (hfull : f.full = true) (idx : OperatorIndex) :
    ∀ (chs : List Channel) (i : Nat) (st : DeclarativeConfig)
      (kb : List (String × List String)),
      chLoop f idx i chs st kb = .ok (st, collectKb kb chs) := by
  intro chs
  induction chs with
  | nil => intro i st kb; simp [chLoop, collectKb]
  | cons ch rest ih =>
    intro i st kb
    have hvr : effectiveVersionRange f ch = "" := by
      have hd : (default : FilterChannel).versionRange = "" := rfl
      have hd2 : (default : FilterPackage).versionRange = "" := rfl
      simp [effectiveVersionRange, hpc, hcc, mapGet?, hd, hd2]
    simp only [chLoop, hvr, hpc, hfull]
    simp [mapGet?]
    rw [show collectKb kb (ch :: rest) =
      collectKb (ch.entries.foldl (fun k2 e => kbInsert k2 ch.package e.name) kb) rest from rfl]
    exact ih (i + 1) st _

/-! ## Order lemmas for the bundle sort -/

theorem bundleKeyLt_irrefl (a : Bundle) : bundleKeyLt a a = false := by
  unfold bundleKeyLt
  simp [strLt_irrefl]

theorem bundleKeyLt_asymm (a b : Bundle) (h : bundleKeyLt a b = true) :
    bundleKeyLt b a = false := by
  unfold bundleKeyLt at h ⊢
  cases h1 : strLt a.package b.package with
  | true =>
    rw [strLt_asymm _ _ h1]
    simp [h1]
  | false =>
    rw [h1] at h
    cases h2 : strLt b.package a.package with
    | true => rw [h2] at h; simp at h
    | false =>
      rw [h2] at h
      simp at h
      simp [h1, h2, strLt_asymm _ _ h]

theorem bundleKeyLt_trans (a b c : Bundle) (h1 : bundleKeyLt a b = true)
    (h2 : bundleKeyLt b c = true) : bundleKeyLt a c = true := by
  unfold bundleKeyLt at h1 h2 ⊢
  cases hab : strLt a.package b.package with
  | true =>
    cases hbc : strLt b.package c.package with
    | true => simp [strLt_trans _ _ _ hab hbc]
    | false =>
      rw [hbc] at h2
      cases hcb : strLt c.package b.package with
      | true => rw [hcb] at h2; simp at h2
      | false =>
        have heq : b.package = c.package := strLt_eq_of_not_lt _ _ hbc hcb
        rw [← heq]
        simp [hab]
  | false =>
    rw [hab] at h1
    cases hba : strLt b.package a.package with
    | true => rw [hba] at h1; simp at h1
    | false =>
      rw [hba] at h1
      simp at h1
      have heqab : a.package = b.package := strLt_eq_of_not_lt _ _ hab hba
      cases hbc : strLt b.package c.package with
      | true =>
        rw [heqab]
        simp [hbc]
      | false =>
        rw [hbc] at h2
        cases hcb : strLt c.package b.package with
        | true => rw [hcb] at h2; simp at h2
        | false =>
          have heqbc : b.package = c.package := strLt_eq_of_not_lt _ _ hbc hcb
          simp at h2
          rw [heqab, heqbc]
          simp [strLt_irrefl, strLt_trans _ _ _ h1 h2.2]

theorem bundleKeyLt_keys_eq (a b : Bundle) (h1 : bundleKeyLt a b = false)
    (h2 : bundleKeyLt b a = false) : a.package = b.package ∧ a.name = b.name := by
  unfold bundleKeyLt at h1 h2
  cases hab : strLt a.package b.package with
  | true => rw [hab] at h1; simp at h1
  | false =>
    cases hba : strLt b.package a.package with
    | true => rw [hba] at h2; simp at h2
    | false =>
      rw [hab, hba] at h1
      rw [hba, hab] at h2
      simp at h1 h2
      exact ⟨strLt_eq_of_not_lt _ _ hab hba, strLt_eq_of_not_lt _ _ h1 h2⟩

theorem bundleKeyLt_congr_left (a b x : Bundle) (hp : a.package = b.package)
    (hn : a.name = b.name) : bundleKeyLt a x = bundleKeyLt b x := by
  unfold bundleKeyLt
  rw [hp, hn]

/-- Keys of two bundles differ (as a symmetric relation). -/
def bundleKeyNe (a b : Bundle) : Prop := ¬ (a.package = b.package ∧ a.name = b.name)

theorem bundleKeyNe_symm {a b : Bundle} (h : bundleKeyNe a b) : bundleKeyNe b a := by
  rintro ⟨h1, h2⟩
  exact h ⟨h1.symm, h2.symm⟩

instance : IsTotal Bundle bundleLe :=
  ⟨by
    intro a b
    unfold bundleLe
    cases h : bundleKeyLt b a with
    | false => exact Or.inl rfl
    | true => exact Or.inr (bundleKeyLt_asymm b a h)⟩

instance : IsTrans Bundle bundleLe :=
  ⟨by
    intro a b c hab hbc
    unfold bundleLe at hab hbc ⊢
    cases hca : bundleKeyLt c a with
    | false => rfl
    | true =>
      exfalso
      cases hbc2 : bundleKeyLt b c with
      | true =>
        have := bundleKeyLt_trans b c a hbc2 hca
        rw [this] at hab
        cases hab
      | false =>
        have hk := bundleKeyLt_keys_eq b c hbc2 hbc
        have := bundleKeyLt_congr_left c b a hk.1.symm hk.2.symm
        rw [this] at hca
        rw [hca] at hab
        cases hab⟩

theorem sortBundles_sorted (bs : List Bundle) : List.Sorted bundleLe (sortBundles bs) :=
  List.sorted_insertionSort bundleLe bs

theorem sortBundles_perm (bs : List Bundle) : (sortBundles bs).Perm bs :=
  List.perm_insertionSort bundleLe bs

theorem pairwise_lt_of_sorted_keyNe (l : List Bundle)
    (hs : List.Sorted bundleLe l) (hk : List.Pairwise bundleKeyNe l) :
    List.Pairwise (fun a b => bundleKeyLt a b = true) l := by
  refine (List.Pairwise.and hs hk).imp ?_
  rintro a b ⟨hle, hne⟩
  cases h : bundleKeyLt a b with
  | true => rfl
  | false => exact absurd (bundleKeyLt_keys_eq a b h hle) hne

theorem bundle_list_eq_of_pairwise_lt_of_mem_iff :
    ∀ (l1 l2 : List Bundle),
      List.Pairwise (fun a b => bundleKeyLt a b = true) l1 →
      List.Pairwise (fun a b => bundleKeyLt a b = true) l2 →
      (∀ b, b ∈ l1 ↔ b ∈ l2) → l1 = l2 := by
  intro l1
  induction l1 with
  | nil =>
    intro l2 _ _ hmem
    cases l2 with
    | nil => rfl
    | cons b t2 =>
      have := (hmem b).mpr (List.mem_cons_self b t2)
      simp at this
  | cons a t1 ih =>
    intro l2 h1 h2 hmem
    cases l2 with
    | nil =>
      have := (hmem a).mp (List.mem_cons_self a t1)
      simp at this
    | cons b t2 =>
      have hab : a = b := by
        rcases List.mem_cons.mp ((hmem a).mp (List.mem_cons_self a t1)) with h | hat2
        · exact h
        · rcases List.mem_cons.mp ((hmem b).mpr (List.mem_cons_self b t2)) with h | hbt1
          · exact h.symm
          · have hba : bundleKeyLt b a = true := (List.pairwise_cons.mp h2).1 a hat2
            have hab2 : bundleKeyLt a b = true := (List.pairwise_cons.mp h1).1 b hbt1
            have := bundleKeyLt_asymm a b hab2
            rw [this] at hba
            cases hba
      subst hab
      have hmem2 : ∀ x, x ∈ t1 ↔ x ∈ t2 := by
        intro x
        constructor
        · intro hx
          rcases List.mem_cons.mp ((hmem x).mp (List.mem_cons_of_mem a hx)) with h | h
          · subst h
            have hxx := (List.pairwise_cons.mp h1).1 x hx
            rw [bundleKeyLt_irrefl] at hxx
            cases hxx
          · exact h
        · intro hx
          rcases List.mem_cons.mp ((hmem x).mpr (List.mem_cons_of_mem a hx)) with h | h
          · subst h
            have hxx := (List.pairwise_cons.mp h2).1 x hx
            rw [bundleKeyLt_irrefl] at hxx
            cases hxx
          · exact h
      rw [ih t2 (List.pairwise_cons.mp h1).2 (List.pairwise_cons.mp h2).2 hmem2]

/-! ## The bundle reassembly under empty-configuration full mode -/

theorem rebuildBundles_eq (idx : OperatorIndex) (kb : List (String × List String)) :
    rebuildBundles idx kb =
      kb.flatMap (fun pb => pb.2.filterMap (fun n => lookup2 idx.bundlesByPkgAndName pb.1 n)) :=
  rfl

theorem rebuildBundles_mem (idx : OperatorIndex) (kb : List (String × List String)) (b : Bundle) :
    b ∈ rebuildBundles idx kb ↔
      ∃ p ns, (p, ns) ∈ kb ∧ ∃ n ∈ ns, lookup2 idx.bundlesByPkgAndName p n = some b := by
  rw [rebuildBundles_eq, List.mem_flatMap]
  constructor
  · rintro ⟨⟨p, ns⟩, hpr, hb⟩
    rw [List.mem_filterMap] at hb
    obtain ⟨n, hn, hl⟩ := hb
    exact ⟨p, ns, hpr, n, hn, hl⟩
  · rintro ⟨p, ns, hpr, n, hn, hl⟩
    exact ⟨(p, ns), hpr, List.mem_filterMap.mpr ⟨n, hn, hl⟩⟩

theorem mapGet?_of_mem_nodupkeys {α : Type} (m : List (String × α))
    (hk : (m.map Prod.fst).Nodup) (p : String) (v : α) (h : (p, v) ∈ m) :
    mapGet? m p = some v := by
  induction m with
  | nil => simp at h
  | cons hd tl ih =>
    obtain ⟨hk2, hv2⟩ := hd
    rcases List.mem_cons.mp h with h2 | h2
    · cases h2
      simp [mapGet?]
    · have hne : hk2 ≠ p := by
        intro he
        subst he
        have : hk2 ∈ tl.map Prod.fst := List.mem_map.mpr ⟨(hk2, v), h2, rfl⟩
        simp at hk
        exact hk.1 v h2
      simp [mapGet?, hne]
      exact ih (List.Nodup.of_cons hk) h2

theorem find?_key_unique (l : List Bundle)
    (hs : List.Pairwise (fun a b => bundleKeyLt a b = true) l) (b : Bundle) (hb : b ∈ l) :
    l.find? (fun x => decide (x.package = b.package) && decide (x.name = b.name)) = some b := by
  induction l with
  | nil => simp at hb
  | cons a t ih =>
    rcases List.mem_cons.mp hb with rfl | hbt
    · simp [List.find?_cons]
    · have hlt : bundleKeyLt a b = true := (List.pairwise_cons.mp hs).1 b hbt
      have hane : ¬ (a.package = b.package ∧ a.name = b.name) := by
        rintro ⟨hp, hn⟩
        have := bundleKeyLt_congr_left a b b hp hn
        rw [bundleKeyLt_irrefl] at this
        rw [this] at hlt
        cases hlt
      rw [List.find?_cons_of_neg]
      · exact ih (List.pairwise_cons.mp hs).2 hbt
      · simp
        intro hp hn
        exact hane ⟨hp, hn⟩

theorem filterMap_lookup_pairwise (M : List (String × List (String × Bundle))) (p : String)
    (ns : List String) (hns : ns.Nodup)
    (hkeys : ∀ n b, lookup2 M p n = some b → b.package = p ∧ b.name = n) :
    List.Pairwise bundleKeyNe (ns.filterMap (fun n => lookup2 M p n)) := by
  induction ns with
  | nil => simp
  | cons n t ih =>
    rw [List.filterMap_cons]
    cases hl : lookup2 M p n with
    | none => exact ih (List.Nodup.of_cons hns)
    | some b =>
      rw [List.pairwise_cons]
      constructor
      · intro b2 hb2
        rw [List.mem_filterMap] at hb2
        obtain ⟨n2, hn2, hl2⟩ := hb2
        have h1 := hkeys n b hl
        have h2 := hkeys n2 b2 hl2
        rintro ⟨-, hnn⟩
        rw [h1.2, h2.2] at hnn
        subst hnn
        exact (List.nodup_cons.mp hns).1 hn2
      · exact ih (List.Nodup.of_cons hns)

theorem rebuildBundles_keys_pairwise (idx : OperatorIndex) :
    ∀ (kb : List (String × List String)), KbWF kb →
      (∀ p n b, lookup2 idx.bundlesByPkgAndName p n = some b → b.package = p ∧ b.name = n) →
      List.Pairwise bundleKeyNe (rebuildBundles idx kb) := by
  intro kb
  induction kb with
  | nil => intro _ _; simp [rebuildBundles]
  | cons pr rest ih =>
    rintro ⟨hkeys, hvals⟩ hlk
    obtain ⟨p, ns⟩ := pr
    rw [rebuildBundles_eq, List.flatMap_cons, List.pairwise_append]
    refine ⟨?_, ?_, ?_⟩
    · exact filterMap_lookup_pairwise idx.bundlesByPkgAndName p ns
        (hvals (p, ns) (List.mem_cons_self _ _)) (fun n b h => hlk p n b h)
    · rw [← rebuildBundles_eq]
      exact ih ⟨List.Nodup.of_cons hkeys, fun pr2 h2 => hvals pr2 (List.mem_cons_of_mem _ h2)⟩ hlk
    · intro b1 hb1 b2 hb2
      rw [List.mem_filterMap] at hb1
      obtain ⟨n1, hn1, hl1⟩ := hb1
      rw [List.mem_flatMap] at hb2
      obtain ⟨⟨q, ms⟩, hq, hb2⟩ := hb2
      rw [List.mem_filterMap] at hb2
      obtain ⟨n2, hn2, hl2⟩ := hb2
      have h1 := hlk p n1 b1 hl1
      have h2 := hlk q n2 b2 hl2
      rintro ⟨hp, -⟩
      rw [h1.1, h2.1] at hp
      subst hp
      have : p ∈ rest.map Prod.fst := List.mem_map.mpr ⟨(p, ms), hq, rfl⟩
      simp at hkeys
      exact (hkeys.1 ms hq).elim

theorem rebuild_sorted_eq (fbc : DeclarativeConfig) (idx : OperatorIndex)
    (hidx : indexFromDeclCfg fbc = .ok idx)
    (hsorted : List.Pairwise (fun a b => bundleKeyLt a b = true) fbc.bundles)
    (href : ∀ b ∈ fbc.bundles, ∃ ch ∈ fbc.channels, ch.package = b.package ∧
      ∃ e ∈ ch.entries, e.name = b.name) :
    sortBundles (rebuildBundles idx (collectKb [] fbc.channels)) = fbc.bundles := by
  set kb := collectKb [] fbc.channels with hkb
  have hlk : ∀ p n b, lookup2 idx.bundlesByPkgAndName p n = some b →
      b.package = p ∧ b.name = n := by
    intro p n b hl
    rw [indexFromDeclCfg_lookup fbc idx hidx] at hl
    have := List.find?_some hl
    simp at this
    exact this
  have hwf : KbWF kb := collectKb_WF fbc.channels [] ⟨List.nodup_nil, by simp⟩
  have hmem : ∀ b, b ∈ rebuildBundles idx kb ↔ b ∈ fbc.bundles := by
    intro b
    rw [rebuildBundles_mem]
    constructor
    · rintro ⟨p, ns, hpr, n, hn, hl⟩
      rw [indexFromDeclCfg_lookup fbc idx hidx] at hl
      exact List.mem_of_find?_eq_some hl
    · intro hb
      obtain ⟨ch, hch, hchp, e, he, hen⟩ := href b hb
      have hm : memKb kb b.package b.name := by
        rw [hkb, memKb_collectKb]
        exact Or.inr ⟨ch, hch, hchp, e, he, hen⟩
      obtain ⟨ns, hget, hmemn⟩ := hm
      refine ⟨b.package, ns, mapGet?_mem hget, b.name, hmemn, ?_⟩
      rw [indexFromDeclCfg_lookup fbc idx hidx]
      exact find?_key_unique fbc.bundles hsorted b hb
  have hkeyp := rebuildBundles_keys_pairwise idx kb hwf hlk
  have hperm := sortBundles_perm (rebuildBundles idx kb)
  have hkeyp2 : List.Pairwise bundleKeyNe (sortBundles (rebuildBundles idx kb)) :=
    (List.Perm.pairwise_iff (fun h => bundleKeyNe_symm h) hperm).mpr hkeyp
  have hlt := pairwise_lt_of_sorted_keyNe _ (sortBundles_sorted _) hkeyp2
  apply bundle_list_eq_of_pairwise_lt_of_mem_iff _ _ hlt hsorted
  intro b
  rw [hperm.mem_iff]
  exact hmem b

theorem filterDeprecations_id (st : DeclarativeConfig) (idx : OperatorIndex)
    (kb : List (String × List String))
    (h : ∀ d ∈ st.deprecations, ∀ en ∈ d.entries,
      (en.reference.schema = SchemaBundle →
        ∀ ns, mapGet? kb d.package = some ns → en.reference.name ∈ ns) ∧
      (en.reference.schema = SchemaChannel →
        ∀ cs, mapGet? idx.channelNames d.package = some cs → en.reference.name ∈ cs)) :
    filterDeprecations st idx kb = st := by
  unfold filterDeprecations
  have hmap : ∀ (deps : List Deprecation),
      (∀ d ∈ deps, ∀ en ∈ d.entries,
        (en.reference.schema = SchemaBundle →
          ∀ ns, mapGet? kb d.package = some ns → en.reference.name ∈ ns) ∧
        (en.reference.schema = SchemaChannel →
          ∀ cs, mapGet? idx.channelNames d.package = some cs → en.reference.name ∈ cs)) →
      deps.map (fun d => { d with entries := d.entries.filter (fun e =>
        if e.reference.schema = SchemaBundle then
          match mapGet? kb d.package with
          | some bundles => bundles.contains e.reference.name
          | none => true
        else if e.reference.schema = SchemaChannel then
          match mapGet? idx.channelNames d.package with
          | some channels => channels.contains e.reference.name
          | none => true
        else true) }) = deps := by
    intro deps
    induction deps with
    | nil => intro _; rfl
    | cons d rest ih =>
      intro hd
      simp only [List.map_cons]
      rw [ih (fun d2 h2 => hd d2 (List.mem_cons_of_mem _ h2))]
      have hent : d.entries.filter (fun e =>
          if e.reference.schema = SchemaBundle then
            match mapGet? kb d.package with
            | some bundles => bundles.contains e.reference.name
            | none => true
          else if e.reference.schema = SchemaChannel then
            match mapGet? idx.channelNames d.package with
            | some channels => channels.contains e.reference.name
            | none => true
          else true) = d.entries := by
        rw [List.filter_eq_self]
        intro en hen
        have h1 := hd d (List.mem_cons_self _ _) en hen
        by_cases hsB : en.reference.schema = SchemaBundle
        · cases hm : mapGet? kb d.package with
          | none => simp [hsB, hm]
          | some ns =>
            simp [hsB, hm, List.elem_iff]
            exact h1.1 hsB ns hm
        · have hCB : ¬ (SchemaChannel = SchemaBundle) := by decide
          by_cases hsC : en.reference.schema = SchemaChannel
          · cases hm : mapGet? idx.channelNames d.package with
            | none => simp [hsB, hsC, hm, hCB]
            | some cs =>
              simp [hsB, hsC, hm, hCB, List.elem_iff]
              exact h1.2 hsC cs hm
          · simp [hsB, hsC]
      rw [hent]
  rw [hmap st.deprecations h]

theorem memKb_nil (q y : String) : ¬ memKb [] q y := by
  rintro ⟨ns, hns, -⟩
  simp [mapGet?] at hns

theorem collectKb_no_entries (chs : List Channel) (h : ∀ ch ∈ chs, ch.entries = []) :
    ∀ kb, collectKb kb chs = kb := by
  induction chs with
  | nil => intro kb; rfl
  | cons ch rest ih =>
    intro kb
    unfold collectKb
    simp only [List.foldl_cons]
    rw [h ch (List.mem_cons_self _ _)]
    simp only [List.foldl_nil]
    exact ih (fun c hc => h c (List.mem_cons_of_mem _ hc)) kb

theorem collectKb_ne_nil (chs : List Channel) (h : ∃ ch ∈ chs, ch.entries ≠ []) :
    collectKb [] chs ≠ [] := by
  obtain ⟨ch, hch, hne⟩ := h
  intro hnil
  have hk := (key_collectKb chs [] ch.package).mpr (Or.inr ⟨ch, hch, rfl, hne⟩)
  rw [hnil] at hk
  simp [mapGet?] at hk

/-- C2 (amended): with an empty configuration and `InFull(true)`,
`FilterCatalog` succeeds on every catalog whose index builds, and the output
keeps the input's packages, channels (entries included) and others
unchanged.  If no channel has entries, the input catalog is returned fully
unchanged.  Otherwise the bundle list is rebuilt: it is sorted by
`(package, name)` and holds exactly the bundles that are the first
occurrence of their `(package, name)` in the input and whose name appears as
a channel entry of their package; and each deprecation block keeps exactly
those entries whose bundle-schema reference names a channel-entry name of
the block's package whenever that package has channel entries, whose
channel-schema reference names a channel of the block's package whenever
that package has channels, or whose schema is neither.  In particular a
normal-form catalog — bundles strictly sorted, every bundle
entry-referenced, deprecation references resolvable — is returned
unchanged. -/
theorem filterCatalog_emptyConfig_full_transform (fbc : DeclarativeConfig)
    (idx : OperatorIndex) (hidx : indexFromDeclCfg fbc = .ok idx) :
    ∃ out : DeclarativeConfig,
      FilterCatalog (NewMirrorFilter {} true) fbc = .ok out ∧
      out.packages = fbc.packages ∧
      out.channels = fbc.channels ∧
      out.others = fbc.others ∧
      ((∀ ch ∈ fbc.channels, ch.entries = []) → out = fbc) ∧
      ((∃ ch ∈ fbc.channels, ch.entries ≠ []) →
        List.Sorted bundleLe out.bundles ∧
        (∀ b : Bundle, b ∈ out.bundles ↔
          ((∃ ch ∈ fbc.channels, ch.package = b.package ∧ ∃ e ∈ ch.entries, e.name = b.name) ∧
            fbc.bundles.find?
              (fun x => decide (x.package = b.package) && decide (x.name = b.name)) = some b)) ∧
        out.deprecations = fbc.deprecations.map (fun d =>
          { d with entries := d.entries.filter (fun en =>
              if en.reference.schema = SchemaBundle then
                decide ((∃ ch ∈ fbc.channels, ch.package = d.package ∧ ch.entries ≠ []) →
                  ∃ ch ∈ fbc.channels, ch.package = d.package ∧
                    ∃ e ∈ ch.entries, e.name = en.reference.name)
              else if en.reference.schema = SchemaChannel then
                decide ((∃ ch ∈ fbc.channels, ch.package = d.package) →
                  ∃ ch ∈ fbc.channels, ch.package = d.package ∧ ch.name = en.reference.name)
              else true) })) ∧
      (List.Pairwise (fun a b => bundleKeyLt a b = true) fbc.bundles →
        (∀ b ∈ fbc.bundles, ∃ ch ∈ fbc.channels, ch.package = b.package ∧
          ∃ e ∈ ch.entries, e.name = b.name) →
        (∀ d ∈ fbc.deprecations, ∀ en ∈ d.entries, en.reference.schema = SchemaBundle →
          ∃ ch ∈ fbc.channels, ch.package = d.package ∧
            ∃ e ∈ ch.entries, e.name = en.reference.name) →
        (∀ d ∈ fbc.deprecations, ∀ en ∈ d.entries, en.reference.schema = SchemaChannel →
          ∃ ch ∈ fbc.channels, ch.package = d.package ∧ ch.name = en.reference.name) →
        out = fbc) := by
  have hpc : (NewMirrorFilter {} true).pkgConfigs = [] := rfl
  have hcc : (NewMirrorFilter {} true).chConfigs = [] := rfl
  have hfull : (NewMirrorFilter {} true).full = true := rfl
  have hpruned : prunedInput (NewMirrorFilter {} true) fbc = fbc := by
    simp [prunedInput, hpc]
  have hrun : FilterCatalog (NewMirrorFilter {} true) fbc =
      .ok (if (collectKb [] fbc.channels).isEmpty then fbc
           else filterDeprecations
             { fbc with bundles := sortBundles (rebuildBundles idx (collectKb [] fbc.channels)) }
             idx (collectKb [] fbc.channels)) := by
    unfold FilterCatalog filterCatalogSteps
    rw [hpruned, hidx]
    dsimp only
    rw [pkgLoop_empty_full _ hpc hfull fbc.packages 0 fbc idx]
    dsimp only
    rw [chLoop_empty_full _ hpc hcc hfull idx fbc.channels 0 fbc []]
    cases hkbe : (collectKb [] fbc.channels).isEmpty <;> simp [hkbe]
  refine ⟨_, hrun, ?_, ?_, ?_, ?_, ?_, ?_⟩
  · cases hkbe : (collectKb [] fbc.channels).isEmpty <;>
      simp [hkbe, filterDeprecations]
  · cases hkbe : (collectKb [] fbc.channels).isEmpty <;>
      simp [hkbe, filterDeprecations]
  · cases hkbe : (collectKb [] fbc.channels).isEmpty <;>
      simp [hkbe, filterDeprecations]
  · intro h
    have h0 : collectKb [] fbc.channels = [] := collectKb_no_entries fbc.channels h []
    simp [h0]
  · rintro ⟨ch0, hch0, hne0⟩
    have hkne : collectKb [] fbc.channels ≠ [] :=
      collectKb_ne_nil fbc.channels ⟨ch0, hch0, hne0⟩
    have hkbe : (collectKb [] fbc.channels).isEmpty = false := by
      cases h : (collectKb [] fbc.channels).isEmpty
      · rfl
      · exact absurd (List.isEmpty_iff.mp h) hkne
    rw [hkbe]
    simp only [Bool.false_eq_true, if_false]
    have hwf : KbWF (collectKb [] fbc.channels) :=
      collectKb_WF fbc.channels [] ⟨List.nodup_nil, by simp⟩
    have hbproj : (filterDeprecations
        { fbc with bundles := sortBundles (rebuildBundles idx (collectKb [] fbc.channels)) }
        idx (collectKb [] fbc.channels)).bundles =
        sortBundles (rebuildBundles idx (collectKb [] fbc.channels)) := rfl
    refine ⟨?_, ?_, ?_⟩
    · rw [hbproj]
      exact sortBundles_sorted _
    · intro b
      rw [hbproj, (sortBundles_perm (rebuildBundles idx (collectKb [] fbc.channels))).mem_iff,
        rebuildBundles_mem]
      constructor
      · rintro ⟨p, ns, hpr, n, hn, hl⟩
        have hget : mapGet? (collectKb [] fbc.channels) p = some ns :=
          mapGet?_of_mem_nodupkeys _ hwf.1 p ns hpr
        have hl2 := hl
        rw [indexFromDeclCfg_lookup fbc idx hidx] at hl2
        have hpred := List.find?_some hl2
        simp at hpred
        have hmk : memKb (collectKb [] fbc.channels) p n := ⟨ns, hget, hn⟩
        rw [memKb_collectKb] at hmk
        rcases hmk with hmk | hmk
        · exact absurd hmk (memKb_nil p n)
        · refine ⟨?_, ?_⟩
          · rw [hpred.1, hpred.2]
            exact hmk
          · rw [hpred.1, hpred.2, ← indexFromDeclCfg_lookup fbc idx hidx]
            exact hl
      · rintro ⟨⟨ch, hch, hchp, e, he, hen⟩, hfind⟩
        have hmk : memKb (collectKb [] fbc.channels) b.package b.name := by
          rw [memKb_collectKb]
          exact Or.inr ⟨ch, hch, hchp, e, he, hen⟩
        obtain ⟨ns, hget, hmem⟩ := hmk
        refine ⟨b.package, ns, mapGet?_mem hget, b.name, hmem, ?_⟩
        rw [indexFromDeclCfg_lookup fbc idx hidx]
        exact hfind
    · have hkeyB : ∀ q, (mapGet? (collectKb [] fbc.channels) q).isSome ↔
          ∃ ch ∈ fbc.channels, ch.package = q ∧ ch.entries ≠ [] := by
        intro q
        rw [key_collectKb]
        simp [mapGet?]
      have hmemB : ∀ q y, memKb (collectKb [] fbc.channels) q y ↔
          ∃ ch ∈ fbc.channels, ch.package = q ∧ ∃ e ∈ ch.entries, e.name = y := by
        intro q y
        rw [memKb_collectKb]
        constructor
        · rintro (h | h)
          · exact absurd h (memKb_nil q y)
          · exact h
        · exact Or.inr
      have hchn := indexFromDeclCfg_channelNames fbc idx hidx
      have hkeyC : ∀ q, (mapGet? idx.channelNames q).isSome ↔
          ∃ ch ∈ fbc.channels, ch.package = q := by
        intro q
        rw [hchn, key_chNamesFold]
        simp [mapGet?]
      have hmemC : ∀ q y, memKb idx.channelNames q y ↔
          ∃ ch ∈ fbc.channels, ch.package = q ∧ ch.name = y := by
        intro q y
        rw [hchn, memKb_chNamesFold]
        constructor
        · rintro (h | h)
          · exact absurd h (memKb_nil q y)
          · exact h
        · exact Or.inr
      have hCB : ¬ (SchemaChannel = SchemaBundle) := by decide
      have hdproj : (filterDeprecations
          { fbc with bundles := sortBundles (rebuildBundles idx (collectKb [] fbc.channels)) }
          idx (collectKb [] fbc.channels)).deprecations =
          fbc.deprecations.map (fun d =>
            { d with entries := d.entries.filter (fun e =>
                if e.reference.schema = SchemaBundle then
                  match mapGet? (collectKb [] fbc.channels) d.package with
                  | some bundles => bundles.contains e.reference.name
                  | none => true
                else if e.reference.schema = SchemaChannel then
                  match mapGet? idx.channelNames d.package with
                  | some channels => channels.contains e.reference.name
                  | none => true
                else true) }) := rfl
      rw [hdproj]
      apply List.map_congr_left
      intro d hd
      dsimp only
      have hfilt : ∀ en : DeprecationEntry,
          (if en.reference.schema = SchemaBundle then
            match mapGet? (collectKb [] fbc.channels) d.package with
            | some bundles => bundles.contains en.reference.name
            | none => true
          else if en.reference.schema = SchemaChannel then
            match mapGet? idx.channelNames d.package with
            | some channels => channels.contains en.reference.name
            | none => true
          else true) =
          (if en.reference.schema = SchemaBundle then
            decide ((∃ ch ∈ fbc.channels, ch.package = d.package ∧ ch.entries ≠ []) →
              ∃ ch ∈ fbc.channels, ch.package = d.package ∧
                ∃ e ∈ ch.entries, e.name = en.reference.name)
          else if en.reference.schema = SchemaChannel then
            decide ((∃ ch ∈ fbc.channels, ch.package = d.package) →
              ∃ ch ∈ fbc.channels, ch.package = d.package ∧ ch.name = en.reference.name)
          else true) := by
        intro en
        by_cases hsB : en.reference.schema = SchemaBundle
        · cases hm : mapGet? (collectKb [] fbc.channels) d.package with
          | none =>
            have hno : ¬ ∃ ch ∈ fbc.channels, ch.package = d.package ∧ ch.entries ≠ [] := by
              rw [← hkeyB]
              simp [hm]
            simp [hsB, hm, hno]
          | some ns =>
            cases hc : ns.contains en.reference.name with
            | true =>
              have hex : ∃ ch ∈ fbc.channels, ch.package = d.package ∧
                  ∃ e ∈ ch.entries, e.name = en.reference.name :=
                (hmemB d.package en.reference.name).mp ⟨ns, hm, List.elem_iff.mp hc⟩
              simp [hsB, hm, hex]
              exact List.elem_iff.mp hc
            | false =>
              have hnmem : en.reference.name ∉ ns := by
                intro hmem
                have hc2 : ns.contains en.reference.name = true := List.elem_iff.mpr hmem
                rw [hc2] at hc
                exact Bool.noConfusion hc
              have hyes : ∃ ch ∈ fbc.channels, ch.package = d.package ∧ ch.entries ≠ [] := by
                rw [← hkeyB]
                simp [hm]
              have hnex : ¬ ∃ ch ∈ fbc.channels, ch.package = d.package ∧
                  ∃ e ∈ ch.entries, e.name = en.reference.name := by
                intro hex
                obtain ⟨ns2, hm2, hmem2⟩ := (hmemB d.package en.reference.name).mpr hex
                rw [hm] at hm2
                cases hm2
                exact hnmem hmem2
              simp [hsB, hm, hc, hyes, hnex, hnmem]
        · by_cases hsC : en.reference.schema = SchemaChannel
          · cases hm : mapGet? idx.channelNames d.package with
            | none =>
              have hno : ¬ ∃ ch ∈ fbc.channels, ch.package = d.package := by
                rw [← hkeyC]
                simp [hm]
              simp [hsB, hsC, hCB, hm, hno]
            | some cs =>
              cases hc : cs.contains en.reference.name with
              | true =>
                have hex : ∃ ch ∈ fbc.channels, ch.package = d.package ∧
                    ch.name = en.reference.name :=
                  (hmemC d.package en.reference.name).mp ⟨cs, hm, List.elem_iff.mp hc⟩
                simp [hsB, hsC, hCB, hm, hex]
                exact List.elem_iff.mp hc
              | false =>
                have hnmem : en.reference.name ∉ cs := by
                  intro hmem
                  have hc2 : cs.contains en.reference.name = true := List.elem_iff.mpr hmem
                  rw [hc2] at hc
                  exact Bool.noConfusion hc
                have hyes : ∃ ch ∈ fbc.channels, ch.package = d.package := by
                  rw [← hkeyC]
                  simp [hm]
                have hnex : ¬ ∃ ch ∈ fbc.channels, ch.package = d.package ∧
                    ch.name = en.reference.name := by
                  intro hex
                  obtain ⟨cs2, hm2, hmem2⟩ := (hmemC d.package en.reference.name).mpr hex
                  rw [hm] at hm2
                  cases hm2
                  exact hnmem hmem2
                simp [hsB, hsC, hCB, hm, hc, hyes, hnex, hnmem]
          · simp [hsB, hsC]
      rw [List.filter_congr (fun en _ => hfilt en)]
  · intro hsorted href hdepB hdepC
    cases hkbe : (collectKb [] fbc.channels).isEmpty with
    | true => simp [hkbe]
    | false =>
      simp only [hkbe, Bool.false_eq_true, if_false]
      rw [rebuild_sorted_eq fbc idx hidx hsorted href]
      have hdep : filterDeprecations { fbc with bundles := fbc.bundles } idx
          (collectKb [] fbc.channels) = { fbc with bundles := fbc.bundles } := by
        apply filterDeprecations_id
        intro d hd en hen
        constructor
        · intro hsB ns hns
          obtain ⟨ch, hch, hchp, e, he, hen2⟩ := hdepB d hd en hen hsB
          have hm : memKb (collectKb [] fbc.channels) d.package en.reference.name := by
            rw [memKb_collectKb]
            exact Or.inr ⟨ch, hch, hchp, e, he, hen2⟩
          obtain ⟨ns2, hget2, hmem2⟩ := hm
          rw [hns] at hget2
          cases hget2
          exact hmem2
        · intro hsC cs hcs
          obtain ⟨ch, hch, hchp, hchn⟩ := hdepC d hd en hen hsC
          have hm : memKb idx.channelNames d.package en.reference.name := by
            rw [indexFromDeclCfg_channelNames fbc idx hidx, memKb_chNamesFold]
            exact Or.inr ⟨ch, hch, hchp, hchn⟩
          obtain ⟨cs2, hget2, hmem2⟩ := hm
          rw [hcs] at hget2
          cases hget2
          exact hmem2
      rw [hdep]

/-- C2 witness: the transformation theorem applied at a concrete catalog,
its index-success hypothesis discharged by evaluation. -/
theorem filterCatalog_emptyConfig_full_transform_witness :
    ∃ out : DeclarativeConfig,
      FilterCatalog (NewMirrorFilter {} true) fbcC2w = .ok out ∧
      out.packages = fbcC2w.packages ∧
      out.channels = fbcC2w.channels ∧
      out.others = fbcC2w.others ∧
      ((∀ ch ∈ fbcC2w.channels, ch.entries = []) → out = fbcC2w) ∧
      ((∃ ch ∈ fbcC2w.channels, ch.entries ≠ []) →
        List.Sorted bundleLe out.bundles ∧
        (∀ b : Bundle, b ∈ out.bundles ↔
          ((∃ ch ∈ fbcC2w.channels, ch.package = b.package ∧ ∃ e ∈ ch.entries, e.name = b.name) ∧
            fbcC2w.bundles.find?
              (fun x => decide (x.package = b.package) && decide (x.name = b.name)) = some b)) ∧
        out.deprecations = fbcC2w.deprecations.map (fun d =>
          { d with entries := d.entries.filter (fun en =>
              if en.reference.schema = SchemaBundle then
                decide ((∃ ch ∈ fbcC2w.channels, ch.package = d.package ∧ ch.entries ≠ []) →
                  ∃ ch ∈ fbcC2w.channels, ch.package = d.package ∧
                    ∃ e ∈ ch.entries, e.name = en.reference.name)
              else if en.reference.schema = SchemaChannel then
                decide ((∃ ch ∈ fbcC2w.channels, ch.package = d.package) →
                  ∃ ch ∈ fbcC2w.channels, ch.package = d.package ∧ ch.name = en.reference.name)
              else true) })) ∧
      (List.Pairwise (fun a b => bundleKeyLt a b = true) fbcC2w.bundles →
        (∀ b ∈ fbcC2w.bundles, ∃ ch ∈ fbcC2w.channels, ch.package = b.package ∧
          ∃ e ∈ ch.entries, e.name = b.name) →
        (∀ d ∈ fbcC2w.deprecations, ∀ en ∈ d.entries, en.reference.schema = SchemaBundle →
          ∃ ch ∈ fbcC2w.channels, ch.package = d.package ∧
            ∃ e ∈ ch.entries, e.name = en.reference.name) →
        (∀ d ∈ fbcC2w.deprecations, ∀ en ∈ d.entries, en.reference.schema = SchemaChannel →
          ∃ ch ∈ fbcC2w.channels, ch.package = d.package ∧ ch.name = en.reference.name) →
        out = fbcC2w) :=
  filterCatalog_emptyConfig_full_transform fbcC2w idxC2w (by decide)
